import Mathlib

/-!
Verification of the baize toolkit's specification against a shallow
embedding of its source code.

The embedding covers:
* `FileResponseMixin.parse_range` from `baize/responses.py`;
* the `Headers` container from `baize/datastructures.py`;
* path compilation and `Route.matches` from `baize/routing.py`
  (plus `BaseRouter.search`, which is absent from the sources and is
  modelled from the spec);
* the `MultipartDecoder` state machine from `baize/multipart.py` together
  with the stream assemblers of `baize/multipart_helper.py`.

Bytes are modelled as natural numbers, byte strings as `List Nat`,
Python `str` values as Lean `String`.  Python exceptions become `Except`
error values.
-/

set_option autoImplicit false
set_option maxRecDepth 100000

namespace Baize

/-! ## Range parsing (`baize/responses.py`, `FileResponseMixin.parse_range`) -/

/-- The error kinds `parse_range` can raise: `MalformedRangeHeader` and
`RangeNotSatisfiable(max_size)` (which carries the total size, used for a
`Content-Range: */total` response header). -/
inductive RangeErr where
  | malformedRangeHeader : RangeErr
  | rangeNotSatisfiable (maxSize : Int) : RangeErr
  deriving DecidableEq, Repr

/-- ASCII decimal digit test: model of `\d` as used by
`re.findall(r"(\d*)-(\d*)", ...)` on a Range header (in practice the header
is ASCII). -/
def isDigitChar (c : Char) : Bool := c.isDigit

/-- Scanner state for the model of `re.findall(r"(\d*)-(\d*)", s)`:
either reading a digit run that may become the first group of a match, or
reading the digits of the second group after a `-`. -/
inductive ScanMode where
  | first (acc : List Char) : ScanMode
  | second (d1 : List Char) (d2 : List Char) : ScanMode

/-- Model of `re.findall(r"(\d*)-(\d*)", s)`.

For this pattern, a (leftmost, non-overlapping) match exists at the maximal
digit run immediately preceding each `-`; the first group is that run and the
second group is the maximal digit run following the `-`.  The scan keeps
either the digit run read since the last non-digit character (`.first`) or
the groups of the match in progress (`.second`). -/
def findPairsGo (m : ScanMode) : List Char → List (String × String)
  | [] =>
    match m with
    | .first _ => []
    | .second d1 d2 => [(⟨d1⟩, ⟨d2⟩)]
  | c :: rest =>
    match m with
    | .first acc =>
      if isDigitChar c then findPairsGo (.first (acc ++ [c])) rest
      else if c = '-' then findPairsGo (.second acc []) rest
      else findPairsGo (.first []) rest
    | .second d1 d2 =>
      if isDigitChar c then findPairsGo (.second d1 (d2 ++ [c])) rest
      else if c = '-' then (⟨d1⟩, ⟨d2⟩) :: findPairsGo (.second [] []) rest
      else (⟨d1⟩, ⟨d2⟩) :: findPairsGo (.first []) rest

/-- All matches of `(\d*)-(\d*)` in the string, with their two groups. -/
def findRangePairs (l : List Char) : List (String × String) :=
  findPairsGo (.first []) l

/-- `int(...)` on a digit string. -/
def strToNat (s : String) : Nat :=
  s.data.foldl (fun a c => 10 * a + (c.toNat - 48)) 0

/-- `line.split("=", maxsplit=1)`: everything before the first `=` and
everything after it; `none` when there is no `=` (in which case the Python
tuple unpacking raises `ValueError`, turned into `MalformedRangeHeader`). -/
def splitOnceEq : List Char → Option (List Char × List Char)
  | [] => none
  | c :: rest =>
    if c = '=' then some ([], rest)
    else (splitOnceEq rest).map (fun p => (c :: p.1, p.2))

/-- The list of requested `(start, end)` half-open intervals extracted from a
Range header line, before any bounds checking: the list comprehension in
`parse_range` over `re.findall(r"(\d*)-(\d*)", ranges_str)`, skipping
`("", "")` pairs.  `none` when the line has no `=` or the unit is not
`bytes`. -/
def rawRanges (line : String) (maxSize : Int) : Option (List (Int × Int)) :=
  match splitOnceEq line.data with
  | none => none
  | some (unit, rangesStr) =>
    if unit = "bytes".data then
      some <|
        ((findRangePairs rangesStr).filter
            (fun p => ¬(p.1 = "" ∧ p.2 = ""))).map
          (fun p =>
            ((if p.1 ≠ "" then (strToNat p.1 : Int)
              else maxSize - (strToNat p.2 : Int)),
             (if p.1 ≠ "" ∧ p.2 ≠ "" ∧ (strToNat p.2 : Int) < maxSize then
                (strToNat p.2 : Int) + 1
              else maxSize)))
    else none

/-- One step of the merge loop in `parse_range`: insert `(start, end)` into
the running result list, scanning existing entries in order; an entry wholly
before the new range is kept (`continue`), a wholly-later entry makes the new
range be inserted before it (`insert ... break`), and an overlapping or
touching entry is replaced by the hull (`result[p] = (min, max); break`);
falling off the end appends (`for ... else`). -/
def insertMerge (r : Int × Int) : List (Int × Int) → List (Int × Int)
  | [] => [r]
  | p :: rest =>
    if r.1 > p.2 then p :: insertMerge r rest
    else if r.2 < p.1 then r :: p :: rest
    else (min r.1 p.1, max r.2 p.2) :: rest

/-- `FileResponseMixin.parse_range(range_raw_line, max_size)`: parse the
Range header and perform the merge/cut processing, or fail with one of the
two error kinds. -/
def parseRange (line : String) (maxSize : Int) :
    Except RangeErr (List (Int × Int)) :=
  match rawRanges line maxSize with
  | none => .error .malformedRangeHeader
  | some ranges =>
    if ranges = [] then .error .malformedRangeHeader
    else if ranges.any (fun r => ¬(0 ≤ r.1 ∧ r.1 < maxSize)) then
      .error (.rangeNotSatisfiable maxSize)
    else if ranges.any (fun r => r.1 > r.2) then .error .malformedRangeHeader
    else if ranges.length = 1 then .ok ranges
    else .ok (ranges.foldl (fun res r => insertMerge r res) [])

/-! ## Headers (`baize/datastructures.py`, class `Headers`) -/

/-- The `Headers` container: an ordered list of `(name, value)` pairs, the
`raw` attribute.  The `headers` branch of `Headers.__init__` lower-cases the
keys of its argument; the `raw` branch stores the given pairs unchanged. -/
structure HeadersM where
  raw : List (String × String)
  deriving DecidableEq, Repr

/-- `str.lower()` on one character (ASCII; header names in this code base
are ASCII). -/
def lowerChar (c : Char) : Char :=
  if 'A' ≤ c ∧ c ≤ 'Z' then Char.ofNat (c.toNat + 32) else c

/-- `str.lower()` (ASCII; header names in this code base are ASCII). -/
def lowerStr (s : String) : String := ⟨s.data.map lowerChar⟩

/-- `Headers.__getitem__`: lower-case the query key, scan `raw` in order and
return the first value stored under that name; `none` models `KeyError`. -/
def HeadersM.getFirst (h : HeadersM) (key : String) : Option String :=
  (h.raw.find? (fun p => p.1 = lowerStr key)).map (fun p => p.2)

/-- `Headers.getlist`: all values stored under the (lower-cased) name, in
insertion order. -/
def HeadersM.getlist (h : HeadersM) (key : String) : List String :=
  (h.raw.filter (fun p => p.1 = lowerStr key)).map (fun p => p.2)

/-- `Headers.__contains__`. -/
def HeadersM.hasKey (h : HeadersM) (key : String) : Bool :=
  h.raw.any (fun p => p.1 = lowerStr key)

/-- `Headers.keys`. -/
def HeadersM.keys (h : HeadersM) : List String := h.raw.map (fun p => p.1)

/-! ## Routing (`baize/routing.py`) -/

/-- The fixed convertor registry `CONVERTOR_TYPES`: `str` (`[^/]+`),
`int` (`[0-9]+`), `decimal` (`[0-9]+(.[0-9]+)?`, with the unescaped dot),
`uuid`, `date` and `any` (`.*`). -/
inductive ConvType where
  | str : ConvType
  | int : ConvType
  | decimal : ConvType
  | uuid : ConvType
  | date : ConvType
  | anyConv : ConvType
  deriving DecidableEq, Repr

/-- A piece of a compiled path pattern: literal text, or a named capture
group using a convertor's regex.  `Route.__init__` interpolates the
convertor regexes into the path format and compiles the result; literal
path characters are modelled as matching themselves (the claims' routes
contain no regex metacharacters in literal position). -/
inductive PPart where
  | lit (s : List Char) : PPart
  | param (name : String) (conv : ConvType) : PPart
  deriving DecidableEq, Repr

/-- Look up a convertor type token in `CONVERTOR_TYPES`; an unknown token is
the `ValueError("Unknown path convertor ...")` raised by `compile_path`. -/
def convOf : Option String → Except String ConvType
  | none => .ok .str
  | some t =>
    if t = "str" then .ok .str
    else if t = "int" then .ok .int
    else if t = "decimal" then .ok .decimal
    else if t = "uuid" then .ok .uuid
    else if t = "date" then .ok .date
    else if t = "any" then .ok .anyConv
    else .error "Unknown path convertor"

/-- `\w` of `PARAM_REGEX` (ASCII; route names in this code base are
ASCII). -/
def isWordChar (c : Char) : Bool := c.isAlphanum || c = '_'

/-- Scanner state for `PARAM_REGEX.finditer`: outside any candidate match,
just after a `{`, inside the `[^\d]\w*` name, or inside the `\w+` type after
a `:`. -/
inductive CPMode where
  | outside : CPMode
  | popen : CPMode
  | pname (nameAcc : List Char) : CPMode
  | ptype (name : List Char) (typAcc : List Char) : CPMode

/-- Wrap a pending literal accumulator as a pattern part. -/
def flushLit (l : List Char) : List PPart :=
  if l = [] then [] else [.lit l]

/-- `compile_path` with the regex interpolation of `Route.__init__`: scan
the path for matches of `PARAM_REGEX = {([^\d]\w*)(:\w+)?}` (leftmost,
non-overlapping; for this pattern the maximal-munch scan below is
equivalent to the backtracking search), keep the text between matches as
literals, and translate each placeholder through the convertor registry.
A failed candidate (`{` not followed by a full placeholder) stays literal
text, and scanning resumes at the character that broke the candidate. -/
def cpGo (lit : List Char) (m : CPMode) : List Char → Except String (List PPart)
  | [] =>
    match m with
    | .outside => .ok (flushLit lit)
    | .popen => .ok (flushLit (lit ++ ['{']))
    | .pname n => .ok (flushLit (lit ++ '{' :: n))
    | .ptype n t => .ok (flushLit (lit ++ '{' :: n ++ ':' :: t))
  | c :: rest =>
    match m with
    | .outside =>
      if c = '{' then cpGo lit .popen rest
      else cpGo (lit ++ [c]) .outside rest
    | .popen =>
      if c.isDigit then cpGo (lit ++ ['{', c]) .outside rest
      else cpGo lit (.pname [c]) rest
    | .pname n =>
      if isWordChar c then cpGo lit (.pname (n ++ [c])) rest
      else if c = ':' then cpGo lit (.ptype n []) rest
      else if c = '}' then do
        let conv ← convOf none
        let ps ← cpGo [] .outside rest
        .ok (flushLit lit ++ .param ⟨n⟩ conv :: ps)
      else if c = '{' then cpGo (lit ++ '{' :: n) .popen rest
      else cpGo (lit ++ '{' :: n ++ [c]) .outside rest
    | .ptype n t =>
      if isWordChar c then cpGo lit (.ptype n (t ++ [c])) rest
      else if c = '}' then
        if t = [] then cpGo (lit ++ '{' :: n ++ [':', '}']) .outside rest
        else do
          let conv ← convOf (some ⟨t⟩)
          let ps ← cpGo [] .outside rest
          .ok (flushLit lit ++ .param ⟨n⟩ conv :: ps)
      else if c = '{' then cpGo (lit ++ '{' :: n ++ ':' :: t) .popen rest
      else cpGo (lit ++ '{' :: n ++ ':' :: t ++ [c]) .outside rest

/-- Compile a path pattern string into its parts, or fail as `compile_path`
does on an unknown convertor token. -/
def compilePath (path : String) : Except String (List PPart) :=
  cpGo [] .outside path.data

/-- The run of characters matchable by `[^/]+` at the head. -/
def nonSlashRun (cs : List Char) : Nat := (cs.takeWhile (fun c => c ≠ '/')).length

/-- The run of decimal digits at the head. -/
def digitRun (cs : List Char) : Nat := (cs.takeWhile Char.isDigit).length

/-- The run of characters matchable by `.` (anything but `\n`: the route
regexes are compiled without `re.DOTALL`) at the head. -/
def dotRun (cs : List Char) : Nat := (cs.takeWhile (fun c => c ≠ '\n')).length

/-- Count from `n` down to `lo`, inclusive. -/
def countdown (n lo : Nat) : List Nat :=
  if n < lo then [] else (List.range (n + 1 - lo)).map (fun i => n - i)

/-- Do the first `len` characters have the fixed shape of the `uuid` or
`date` regex?  `shape` holds, per position, either the literal character
required or `none` for a character-class position. -/
def shapeMatch (cls : Char → Bool) (shape : List (Option Char)) (cs : List Char) : Bool :=
  match shape, cs with
  | [], _ => true
  | _ :: _, [] => false
  | o :: shape', c :: cs' =>
    (match o with
     | some lc => c = lc
     | none => cls c) && shapeMatch cls shape' cs'

/-- The shape of the `uuid` regex `[0-9a-f]{8}-[0-9a-f]{4}-[0-9a-f]{4}-[0-9a-f]{4}-[0-9a-f]{12}`. -/
def uuidShape : List (Option Char) :=
  (List.replicate 8 none) ++ [some '-'] ++ (List.replicate 4 none) ++ [some '-'] ++
    (List.replicate 4 none) ++ [some '-'] ++ (List.replicate 4 none) ++ [some '-'] ++
    (List.replicate 12 none)

/-- The shape of the `date` regex `[0-9]{4}-[0-9]{2}-[0-9]{2}`. -/
def dateShape : List (Option Char) :=
  (List.replicate 4 none) ++ [some '-'] ++ (List.replicate 2 none) ++ [some '-'] ++
    (List.replicate 2 none)

/-- `[0-9a-f]`. -/
def isHexLower (c : Char) : Bool := c.isDigit || ('a' ≤ c && c ≤ 'f')

/-- The candidate capture lengths of a convertor's regex at the head of
`cs`, in the order Python's backtracking engine proposes them (longest
first for each greedy run).  Every candidate length yields a prefix that
fully matches the convertor regex, so the continuation decides which one
wins. -/
def convCandidates (conv : ConvType) (cs : List Char) : List Nat :=
  match conv with
  | .str => countdown (nonSlashRun cs) 1
  | .int => countdown (digitRun cs) 1
  | .anyConv => countdown (dotRun cs) 0
  | .uuid => if shapeMatch isHexLower uuidShape cs then [36] else []
  | .date => if shapeMatch Char.isDigit dateShape cs then [10] else []
  | .decimal =>
    (countdown (digitRun cs) 1).flatMap (fun k1 =>
      ((match cs.drop k1 with
        | [] => []
        | c :: cs' =>
          if c ≠ '\n' ∧ 1 ≤ digitRun cs' then
            (countdown (digitRun cs') 1).map (fun j => 1 + j)
          else []) ++ [0]).map (fun o => k1 + o))

/-- `re.fullmatch` of a compiled route pattern against a path: literals must
match exactly, and each named group tries its candidate lengths in
backtracking order, the remainder of the pattern deciding.  Returns the
captured `(name, convertor, text)` triples in group order. -/
def matchParts : List PPart → List Char → Option (List (String × ConvType × String))
  | [], [] => some []
  | [], _ :: _ => none
  | .lit l :: ps, cs =>
    if l.isPrefixOf cs then matchParts ps (cs.drop l.length) else none
  | .param n conv :: ps, cs =>
    (convCandidates conv cs).findSome? (fun k =>
      (matchParts ps (cs.drop k)).map (fun rest => (n, conv, ⟨cs.take k⟩) :: rest))

/-- The result of a convertor's `to_python`: a typed Python value.
(`Decimal` values are kept as their literal text; the claims do not involve
decimal normalisation.) -/
inductive PyValue where
  | pstr (v : String) : PyValue
  | pint (n : Nat) : PyValue
  | pdecimal (v : String) : PyValue
  | puuid (v : String) : PyValue
  | pdate (y m d : Nat) : PyValue
  deriving DecidableEq, Repr

/-- `convertor.to_python(value)`. -/
def toPython (conv : ConvType) (v : String) : PyValue :=
  match conv with
  | .str => .pstr v
  | .anyConv => .pstr v
  | .int => .pint (strToNat v)
  | .decimal => .pdecimal v
  | .uuid => .puuid v
  | .date =>
    .pdate (strToNat ⟨v.data.take 4⟩) (strToNat ⟨(v.data.drop 5).take 2⟩)
      (strToNat ⟨(v.data.drop 8).take 2⟩)

/-- `Route.matches(path)`: full-match the compiled pattern and convert each
captured value with its convertor, keeping group order. -/
def routeMatches (parts : List PPart) (path : String) :
    Option (List (String × PyValue)) :=
  (matchParts parts path.data).map
    (fun l => l.map (fun t => (t.1, toPython t.2.1 t.2.2)))

/-- Modelled from the spec: `BaseRouter.search` is called by the WSGI/ASGI
routers but is absent from the sources; per the spec it linearly scans the
compiled routes in declaration order and returns the first route whose
pattern fully matches the path, together with the typed, converted parameter
mapping, and `none` (a not-found signal, not an error) when no route
matches. -/
def search {E : Type} (routes : List (List PPart × E)) (path : String) :
    Option ((List PPart × E) × List (String × PyValue)) :=
  match routes with
  | [] => none
  | r :: rest =>
    match routeMatches r.1 path with
    | some ps => some (r, ps)
    | none => search rest path

/-! ## Multipart decoding (`baize/multipart.py`)

Bytes are natural numbers (`13` = CR, `10` = LF).  The three module-level
regexes and the two instance regexes of `MultipartDecoder` are concrete
enough to be modelled as direct scanning functions; each model follows
Python `re` semantics for its pattern: leftmost match, alternatives in
written order, greedy repetition with backtracking. -/

/-- Horizontal whitespace `[^\S\n\r]` over bytes: the `\s` class minus CR
and LF, i.e. space, tab, vertical tab and form feed. -/
def isHWSByte (b : Nat) : Bool := b = 32 || b = 9 || b = 11 || b = 12

/-- Length of the leading run of horizontal whitespace. -/
def hwsRun (l : List Nat) : Nat := (l.takeWhile isHWSByte).length

/-- `LINE_BREAK = (?:\r\n|\n|\r)` matched at the head of the buffer:
alternatives in written order, so CRLF is preferred over a bare CR. -/
def matchLB : List Nat → Option Nat
  | 13 :: 10 :: _ => some 2
  | 10 :: _ => some 1
  | 13 :: _ => some 1
  | _ => none

/-- The candidate lengths for an optional line break `LINE_BREAK?` at the
head, in backtracking order (each alternative, then the empty match). -/
def lbOptCandidates : List Nat → List Nat
  | 13 :: 10 :: _ => [2, 1, 0]
  | 13 :: _ => [1, 0]
  | 10 :: _ => [1, 0]
  | _ => [0]

/-- The candidate lengths for a mandatory line break at the head, in
backtracking order. -/
def lbMandCandidates : List Nat → List Nat
  | 13 :: 10 :: _ => [2, 1]
  | 13 :: _ => [1]
  | 10 :: _ => [1]
  | _ => []

/-- The group `(--[^\S\n\r]*LINE_BREAK?|[^\S\n\r]*LINE_BREAK)` of the two
boundary regexes, matched at the head: the first alternative succeeds
whenever `--` is present (its tail is all optional, taken greedily), the
second needs a line break after optional horizontal whitespace.  Returns
the matched length and whether the group starts with `--` (the epilogue
test `match.group(1).startswith(b"--")`). -/
def groupMatch (l : List Nat) : Option (Nat × Bool) :=
  match l with
  | 45 :: 45 :: rest =>
    let k := hwsRun rest
    let lb := (matchLB (rest.drop k)).getD 0
    some (2 + k + lb, true)
  | _ =>
    let k := hwsRun l
    match matchLB (l.drop k) with
    | some j => some (k + j, false)
    | none => none

/-- Match `LINE_BREAK? -- boundary (group)` (`preamble_re`, when
`optLB = true`) or `LINE_BREAK -- boundary (group)` (`boundary_re`) at the
head of `l`: try the line-break candidates in backtracking order, then the
literal `--boundary`, then the group.  Returns the match length and the
epilogue flag. -/
def coreAt (boundary : List Nat) (optLB : Bool) (l : List Nat) :
    Option (Nat × Bool) :=
  (if optLB then lbOptCandidates l else lbMandCandidates l).findSome?
    (fun p =>
      let l1 := l.drop p
      if (45 :: 45 :: boundary).isPrefixOf l1 then
        (groupMatch (l1.drop (2 + boundary.length))).map
          (fun g => (p + 2 + boundary.length + g.1, g.2))
      else none)

/-- `re.search` for the two boundary regexes: leftmost position where
`coreAt` succeeds; returns `(start, end, epilogue flag)`. -/
def reSearchGo (boundary : List Nat) (optLB : Bool) (i : Nat) :
    List Nat → Option (Nat × Nat × Bool)
  | [] => none
  | l@(_ :: rest) =>
    match coreAt boundary optLB l with
    | some (len, dd) => some (i, i + len, dd)
    | none => reSearchGo boundary optLB (i + 1) rest

/-- `preamble_re.search` (`optLB = true`) and `boundary_re.search`
(`optLB = false`). -/
def reSearch (boundary : List Nat) (optLB : Bool) (l : List Nat) :
    Option (Nat × Nat × Bool) :=
  reSearchGo boundary optLB 0 l

/-- `BLANK_LINE_RE.search`: leftmost occurrence of `\r\n\r\n`, `\r\r` or
`\n\n` (at most one alternative can match at a given position); returns
`(start, end)`. -/
def blankLineSearchGo (i : Nat) : List Nat → Option (Nat × Nat)
  | 13 :: 10 :: 13 :: 10 :: _ => some (i, i + 4)
  | 13 :: 13 :: _ => some (i, i + 2)
  | 10 :: 10 :: _ => some (i, i + 2)
  | _ :: rest => blankLineSearchGo (i + 1) rest
  | [] => none

/-- `BLANK_LINE_RE.search` from the start of the buffer. -/
def blankLineSearch (l : List Nat) : Option (Nat × Nat) :=
  blankLineSearchGo 0 l

/-- `bytes.find`: index of the first occurrence of `pat`, `none` for the
Python `-1`. -/
def findSubGo (pat : List Nat) (i : Nat) : List Nat → Option Nat
  | [] => if pat = [] then some i else none
  | l@(_ :: rest) =>
    if pat.isPrefixOf l then some i else findSubGo pat (i + 1) rest

/-- `bytes.find` from the start. -/
def findSub (pat l : List Nat) : Option Nat := findSubGo pat 0 l

/-- `bytes.rindex`: index of the last occurrence. -/
def lastIdxGo (c : Nat) (i : Nat) (best : Option Nat) : List Nat → Option Nat
  | [] => best
  | b :: rest => lastIdxGo c (i + 1) (if b = c then some i else best) rest

/-- `MultipartDecoder.last_newline`: the smaller of the last indices of LF
and CR, each defaulting to the buffer length when absent. -/
def lastNewline (l : List Nat) : Nat :=
  min ((lastIdxGo 10 0 none l).getD l.length)
    ((lastIdxGo 13 0 none l).getD l.length)

/-- `HEADER_CONTINUATION_RE.sub(b" ", data)`: replace every line break
followed by a space or tab with a single space (RFC 2231 header
continuations), scanning left to right over non-overlapping matches with
the line-break alternatives in written order. -/
def headerContSub : List Nat → List Nat
  | 13 :: 10 :: c :: rest =>
    if c = 32 ∨ c = 9 then 32 :: headerContSub rest
    else 13 :: headerContSub (10 :: c :: rest)
  | 13 :: c :: rest =>
    if c = 32 ∨ c = 9 then 32 :: headerContSub rest
    else 13 :: headerContSub (c :: rest)
  | 10 :: c :: rest =>
    if c = 32 ∨ c = 9 then 32 :: headerContSub rest
    else 10 :: headerContSub (c :: rest)
  | c :: rest => c :: headerContSub rest
  | [] => []

/-- `bytes.splitlines()` (for `bytes`, the line breaks are `\r\n`, `\r` and
`\n` only; no trailing empty line for a terminal break). -/
def splitLinesGo (cur : List Nat) : List Nat → List (List Nat)
  | [] => if cur = [] then [] else [cur]
  | 13 :: 10 :: rest => cur :: splitLinesGo [] rest
  | 13 :: rest => cur :: splitLinesGo [] rest
  | 10 :: rest => cur :: splitLinesGo [] rest
  | c :: rest => splitLinesGo (cur ++ [c]) rest

/-- `bytes.splitlines()`. -/
def splitLinesB (l : List Nat) : List (List Nat) := splitLinesGo [] l

/-- ASCII whitespace as stripped by `bytes.strip()`. -/
def isSpaceByte (b : Nat) : Bool :=
  b = 32 || b = 9 || b = 10 || b = 13 || b = 11 || b = 12

/-- `bytes.strip()`. -/
def stripB (l : List Nat) : List Nat :=
  ((l.dropWhile isSpaceByte).reverse.dropWhile isSpaceByte).reverse

/-- `bytes.decode("latin-1")`: one character per byte.  (Bytes are below
256, hence valid code points.) -/
def latin1Decode (l : List Nat) : String := ⟨l.map Char.ofNat⟩

/-- The decoder configuration: the boundary bytes and the declared
charset, the latter given as its decoding function (`none` models a
`UnicodeDecodeError` or `LookupError`). -/
structure DecoderCfg where
  boundary : List Nat
  charsetDecode : List Nat → Option String

/-- `safe_decode`: decode with the declared charset, falling back to
latin-1 (which never fails). -/
def safeDecode (cfg : DecoderCfg) (l : List Nat) : String :=
  (cfg.charsetDecode l).getD (latin1Decode l)

/-- Whitespace as stripped by `str.strip()` (ASCII subset; header text in
this code base is ASCII). -/
def isSpaceChar (c : Char) : Bool :=
  c.toNat = 32 || c.toNat = 9 || c.toNat = 10 || c.toNat = 13 ||
    c.toNat = 11 || c.toNat = 12

/-- `str.strip()`. -/
def stripStr (s : String) : String :=
  ⟨((s.data.dropWhile isSpaceChar).reverse.dropWhile isSpaceChar).reverse⟩

/-- Split at the first occurrence of `sep`: `str.split(sep, 1)` when the
separator occurs, `none` otherwise. -/
def splitFirstChar (sep : Char) : List Char → Option (List Char × List Char)
  | [] => none
  | c :: rest =>
    if c = sep then some ([], rest)
    else (splitFirstChar sep rest).map (fun p => (c :: p.1, p.2))

/-! ### `parse_header` (`baize/utils.py`, copied from the stdlib) -/

/-- The quote-balance scan of `_parseparam`: the index of the first `;`
that is at position 0 or is preceded by an even number of unescaped double
quotes (`s.count('"',0,end) - s.count('\\"',0,end)` even); `parity` is that
count's parity so far and `prevBackslash` whether the previous character
was a backslash. -/
def findSemiBalGo (i : Nat) (parity : Bool) (prevBackslash : Bool) :
    List Char → Option Nat
  | [] => none
  | c :: rest =>
    if c = ';' ∧ (i = 0 ∨ parity = false) then some i
    else
      findSemiBalGo (i + 1)
        (if c = '"' ∧ ¬prevBackslash then ¬parity else parity)
        (c = '\\') rest

/-- The end index used by `_parseparam` for the current parameter. -/
def findSemiBal (l : List Char) : Option Nat := findSemiBalGo 0 false false l

/-- `_parseparam(s)`: repeatedly strip a leading `;`, cut at the
quote-balanced `;` (or the end), and yield the stripped piece.  Each
iteration consumes at least the leading `;`, so `s.length + 1` steps of
fuel always suffice (the `0` branch is unreachable). -/
def parseparamGo : Nat → List Char → List String
  | 0, _ => []
  | fuel + 1, s =>
    match s with
    | ';' :: s1 =>
      let e := (findSemiBal s1).getD s1.length
      stripStr ⟨s1.take e⟩ :: parseparamGo fuel (s1.drop e)
    | _ => []

/-- Replace every occurrence of the two-character sequence `[a, b]` by `r`,
scanning left to right over non-overlapping matches (`str.replace` for a
two-character needle). -/
def replace2 (a b : Char) (r : List Char) : List Char → List Char
  | [] => []
  | [c] => [c]
  | c1 :: c2 :: rest =>
    if c1 = a ∧ c2 = b then r ++ replace2 a b r rest
    else c1 :: replace2 a b r (c2 :: rest)

/-- `dict` assignment `pdict[name] = value`: overwrite in place or
append. -/
def dictSet (k v : String) : List (String × String) → List (String × String)
  | [] => [(k, v)]
  | p :: rest => if p.1 = k then (k, v) :: rest else p :: dictSet k v rest

/-- `dict.get`. -/
def dictGet (d : List (String × String)) (k : String) : Option String :=
  (d.find? (fun p => p.1 = k)).map (fun p => p.2)

/-- One parameter of `parse_header`: split at the first `=`, lower-case and
strip the name, strip the value and unquote it (`"..."` with `\\` and `\"`
unescaped). -/
def parseHeaderParam (p : String) (d : List (String × String)) :
    List (String × String) :=
  match splitFirstChar '=' p.data with
  | none => d
  | some (n, v) =>
    let name := lowerStr (stripStr ⟨n⟩)
    let value := stripStr ⟨v⟩
    let value :=
      if 2 ≤ value.data.length ∧ value.data.head? = some '"' ∧
          value.data.getLast? = some '"' then
        ⟨replace2 '\\' '"' ['"']
          (replace2 '\\' '\\' ['\\'] ((value.data.drop 1).dropLast))⟩
      else value
    dictSet name value d

/-- `parse_header(line)`: the main value and the option dictionary. -/
def parseHeader (line : String) : String × List (String × String) :=
  match parseparamGo (line.data.length + 2) (';' :: line.data) with
  | [] => ("", [])
  | key :: params => (key, params.foldl (fun d p => parseHeaderParam p d) [])

/-! ### The decoder state machine -/

/-- The five decoder states of `class State`. -/
inductive MStateTag where
  | PREAMBLE : MStateTag
  | PART : MStateTag
  | DATA : MStateTag
  | EPILOGUE : MStateTag
  | COMPLETE : MStateTag
  deriving DecidableEq, Repr

/-- The decoder's mutable state: `self.state`, `self.buffer`,
`self.complete`. -/
structure DState where
  state : MStateTag
  buffer : List Nat
  complete : Bool
  deriving DecidableEq, Repr

/-- The events of `baize/multipart.py`.  `Field.name` is
`extra.get("name")`, which can be `None` despite the `cast(str, ...)`,
hence `Option String`. -/
inductive MEvent where
  | preamble (data : List Nat) : MEvent
  | field (name : Option String) (headers : HeadersM) : MEvent
  | file (name : Option String) (filename : String) (headers : HeadersM) : MEvent
  | data (data : List Nat) (more_data : Bool) : MEvent
  | epilogue (data : List Nat) : MEvent
  | needData : MEvent
  deriving DecidableEq, Repr

/-- The exceptions `next_event` can raise: `MalformedMultipart`; the
`ValueError` from unpacking `split(":", 1)` on a header line without a
colon; and the `AttributeError` from the `Headers(headers)` call at the
end of `_parse_headers` — `Headers.__init__` accepts only a `Mapping` for
its `headers` parameter (it runs `headers.items()`), while
`_parse_headers` passes a `list` of pairs, so the construction raises
unconditionally, even for an empty list (`[] is not None`). -/
inductive MErr where
  | malformedMultipart : MErr
  | valueError : MErr
  | attributeError : MErr
  deriving DecidableEq, Repr

/-- The line-by-line loop of `_parse_headers`: strip each line, skip blank
ones, `safe_decode` and split at the first `:` (no colon raises
`ValueError`), strip name and value. -/
def parseHeaderLines (cfg : DecoderCfg) :
    List (List Nat) → Except MErr (List (String × String))
  | [] => .ok []
  | line :: rest =>
    let l := stripB line
    if l = [] then parseHeaderLines cfg rest
    else
      match splitFirstChar ':' (safeDecode cfg l).data with
      | none => .error .valueError
      | some (n, v) =>
        (parseHeaderLines cfg rest).map
          (fun hs => (stripStr ⟨n⟩, stripStr ⟨v⟩) :: hs)

/-- `MultipartDecoder._parse_headers(data)`: merge continuation lines and
parse one header per line; the final `return Headers(headers)` then always
raises `AttributeError` (`Headers.__init__` calls `.items()` on the list),
so the function never returns a `Headers` value: it raises `ValueError`
for a colon-less line and `AttributeError` otherwise. -/
def parseHeadersB (cfg : DecoderCfg) (data : List Nat) :
    Except MErr HeadersM :=
  match parseHeaderLines cfg (splitLinesB (headerContSub data)) with
  | .error e => .error e
  | .ok _ => .error .attributeError

/-- `MultipartDecoder.receive_data`. -/
def receiveData (st : DState) : Option (List Nat) → DState
  | none => { st with complete := true }
  | some d => { st with buffer := st.buffer ++ d }

/-- The partial-data case of the `DATA` state: no usable boundary match, so
emit everything up to `last_newline` as `Data(more_data=True)` when
non-empty, else `NeedData`; either way `del self.buffer[:last_newline]`
(the state tag is unchanged, `more_data` is `True`). -/
def dataPartial (st : DState) : Except MErr (MEvent × DState) :=
  if st.buffer.take (lastNewline st.buffer) ≠ [] then
    .ok (.data (st.buffer.take (lastNewline st.buffer)) true,
      { st with buffer := st.buffer.drop (lastNewline st.buffer) })
  else .ok (.needData, { st with buffer := st.buffer.drop (lastNewline st.buffer) })

/-- `MultipartDecoder.next_event` without the final
`complete and NeedData` check (factored out so the check can be stated
separately). -/
def nextEventCore (cfg : DecoderCfg) (st : DState) :
    Except MErr (MEvent × DState) :=
  match st.state with
  | .PREAMBLE =>
    match reSearch cfg.boundary true st.buffer with
    | some (s, e, dd) =>
      .ok (.preamble (st.buffer.take s),
        { st with state := if dd then .EPILOGUE else .PART,
                  buffer := st.buffer.drop e })
    | none => .ok (.needData, st)
  | .PART =>
    match blankLineSearch st.buffer with
    | some (s, e) =>
      match parseHeadersB cfg (st.buffer.take s) with
      | .error err => .error err
      | .ok headers =>
        if headers.hasKey "content-disposition" then
          match dictGet (parseHeader ((headers.getFirst
              "content-disposition").getD "")).2 "filename" with
          | some fn =>
            .ok (.file (dictGet (parseHeader ((headers.getFirst
                "content-disposition").getD "")).2 "name") fn headers,
              { st with state := .DATA, buffer := st.buffer.drop e })
          | none =>
            .ok (.field (dictGet (parseHeader ((headers.getFirst
                "content-disposition").getD "")).2 "name") headers,
              { st with state := .DATA, buffer := st.buffer.drop e })
        else .error .malformedMultipart
    | none => .ok (.needData, st)
  | .DATA =>
    match findSub (45 :: 45 :: cfg.boundary) st.buffer with
    | none => dataPartial st
    | some _ =>
      match reSearch cfg.boundary false st.buffer with
      | some (s, e, dd) =>
        .ok (.data (st.buffer.take s) false,
          { st with state := if dd then .EPILOGUE else .PART,
                    buffer := st.buffer.drop e })
      | none => dataPartial st
  | .EPILOGUE =>
    if st.complete then
      .ok (.epilogue st.buffer, { st with buffer := [], state := .COMPLETE })
    else .ok (.needData, st)
  | .COMPLETE => .ok (.needData, st)

/-- `MultipartDecoder.next_event`: the core, then the end-of-stream check:
a `NeedData` outcome with `complete` set is the
`MalformedMultipart("Invalid form-data cannot parse beyond ...")`. -/
def nextEvent (cfg : DecoderCfg) (st : DState) :
    Except MErr (MEvent × DState) :=
  match nextEventCore cfg st with
  | .error e => .error e
  | .ok (ev, st') =>
    if st.complete ∧ ev = .needData then .error .malformedMultipart
    else .ok (ev, st')

/-! ### Driving the decoder -/

/-- Errors of the drivers: a decoder exception, or fuel exhaustion of the
bounded drain loop (which provably cannot happen for the fuel the drivers
pass, see `drain_no_fuel`). -/
inductive DrErr where
  | dec (e : MErr) : DrErr
  | fuel : DrErr
  deriving DecidableEq, Repr

/-- Rank of a decoder state: every emitted event strictly decreases
`2 * buffer.length + rank`. -/
def stateRank : MStateTag → Nat
  | .PREAMBLE => 4
  | .PART => 3
  | .DATA => 2
  | .EPILOGUE => 1
  | .COMPLETE => 0

/-- The termination measure of the drain loop. -/
def dMeasure (st : DState) : Nat := 2 * st.buffer.length + stateRank st.state

/-- Repeatedly call `next_event`, collecting events, stopping at
`NeedData` (the event is not collected) or after an `Epilogue` (collected),
as the assembler loops of `multipart_helper.py` do. -/
def drain (cfg : DecoderCfg) : Nat → DState → Except DrErr (List MEvent × DState)
  | 0, _ => .error .fuel
  | fuel + 1, st =>
    match nextEvent cfg st with
    | .error e => .error (.dec e)
    | .ok (ev, st') =>
      if ev = .needData then .ok ([], st')
      else
        match ev with
        | .epilogue d => .ok ([.epilogue d], st')
        | _ =>
          match drain cfg fuel st' with
          | .error e => .error e
          | .ok (evs, st'') => .ok (ev :: evs, st'')

/-- Feed one chunk and drain: `receive_data(chunk)` then `next_event` until
`NeedData`. -/
def feedChunk (cfg : DecoderCfg) (st : DState) (chunk : List Nat) :
    Except DrErr (List MEvent × DState) :=
  let st' := receiveData st (some chunk)
  drain cfg (dMeasure st' + 1) st'

/-- The fresh decoder state. -/
def initState : DState := ⟨.PREAMBLE, [], false⟩

/-- Feed every chunk in turn (draining after each), then signal
end-of-stream and drain to the `Epilogue`. -/
def decodeAllGo (cfg : DecoderCfg) (st : DState) :
    List (List Nat) → Except DrErr (List MEvent × DState)
  | [] =>
    let st' := receiveData st none
    drain cfg (dMeasure st' + 1) st'
  | c :: cs =>
    match feedChunk cfg st c with
    | .error e => .error e
    | .ok (evs, st') =>
      match decodeAllGo cfg st' cs with
      | .error e => .error e
      | .ok (evs2, st'') => .ok (evs ++ evs2, st'')

/-- The whole event sequence a fresh decoder produces for a chunked
payload: the chunk-at-a-time driver of the chunk-size-independence
claim. -/
def decodeAll (cfg : DecoderCfg) (chunks : List (List Nat)) :
    Except DrErr (List MEvent) :=
  (decodeAllGo cfg initState chunks).map (fun p => p.1)

/-! ### Form assembly (`baize/multipart_helper.py`, `parse_stream`) -/

/-- The model of an upload file created by the `file_factory`: writes
append to `content`, `seek(0)` resets `pos`. -/
structure UploadFileM where
  filename : String
  headers : HeadersM
  content : List Nat
  pos : Nat
  deriving DecidableEq, Repr

/-- A form value: decoded text or an upload file. -/
inductive FormValue where
  | text (s : String) : FormValue
  | file (f : UploadFileM) : FormValue
  deriving DecidableEq, Repr

/-- The assembler's loop variables in `parse_stream`. -/
structure AsmState where
  fieldName : Option String
  dataAcc : List Nat
  file : Option UploadFileM
  formPartsCount : Nat
  formMemorySize : Nat
  items : List (Option String × FormValue)
  deriving DecidableEq, Repr

/-- Errors of the assembler: `RequestEntityTooLarge`, a decoder exception,
or driver fuel exhaustion. -/
inductive AsmErr where
  | tooLarge : AsmErr
  | dec (e : MErr) : AsmErr
  | fuel : AsmErr
  deriving DecidableEq, Repr

/-- The fresh assembler state (`field_name = ""`, empty accumulators). -/
def initAsm : AsmState := ⟨some "", [], none, 0, 0, []⟩

/-- `max_form_memory_size is not None and form_memory_size_count >
max_form_memory_size`. -/
def memExceeded (maxMem : Option Nat) (mem : Nat) : Bool :=
  match maxMem with
  | none => false
  | some lim => lim < mem

/-- One event of the event loop in `parse_stream`: `Field`/`File` set the
current field, `Data` accumulates (checking `max_form_memory_size` for
non-file data) and on `more_data = False` completes the part (checking
`max_form_parts`).  `Preamble` falls through every branch. -/
def asmStep (cfg : DecoderCfg) (maxParts : Nat) (maxMem : Option Nat)
    (a : AsmState) : MEvent → Except AsmErr AsmState
  | .field name _ => .ok { a with fieldName := name }
  | .file name fn hs =>
    .ok { a with fieldName := name, file := some ⟨fn, hs, [], 0⟩ }
  | .data d more =>
    match a.file with
    | none =>
      let acc := a.dataAcc ++ d
      let mem := a.formMemorySize + d.length
      if memExceeded maxMem mem then .error .tooLarge
      else
        if more then .ok { a with dataAcc := acc, formMemorySize := mem }
        else
          let cnt := a.formPartsCount + 1
          if maxParts < cnt then .error .tooLarge
          else
            .ok { a with
                    dataAcc := [], formMemorySize := mem,
                    formPartsCount := cnt,
                    items := a.items ++
                      [(a.fieldName, .text (safeDecode cfg acc))] }
    | some f =>
      let f' := { f with content := f.content ++ d }
      if more then .ok { a with file := some f' }
      else
        let cnt := a.formPartsCount + 1
        if maxParts < cnt then .error .tooLarge
        else
          .ok { a with
                  file := none, formPartsCount := cnt,
                  items := a.items ++
                    [(a.fieldName, .file { f' with pos := 0 })] }
  | .preamble _ => .ok a
  | .epilogue _ => .ok a
  | .needData => .ok a

/-- Fold the assembler over a drained batch of events. -/
def asmFold (cfg : DecoderCfg) (maxParts : Nat) (maxMem : Option Nat)
    (a : AsmState) : List MEvent → Except AsmErr AsmState
  | [] => .ok a
  | ev :: evs =>
    match asmStep cfg maxParts maxMem a ev with
    | .error e => .error e
    | .ok a' => asmFold cfg maxParts maxMem a' evs

/-- The chunk loop of `parse_stream`: feed each chunk, drain the events
(the inner `while True`, which breaks on `Epilogue` or `NeedData`), and run
the assembler over them.  `parse_stream` never signals end-of-stream to the
decoder. -/
def parseStreamGo (cfg : DecoderCfg) (maxParts : Nat) (maxMem : Option Nat)
    (dst : DState) (a : AsmState) :
    List (List Nat) → Except AsmErr AsmState
  | [] => .ok a
  | c :: cs =>
    match feedChunk cfg dst c with
    | .error (.dec e) => .error (.dec e)
    | .error .fuel => .error .fuel
    | .ok (evs, dst') =>
      match asmFold cfg maxParts maxMem a evs with
      | .error e => .error e
      | .ok a' => parseStreamGo cfg maxParts maxMem dst' a' cs

/-- `parse_stream(stream, boundary, charset, ..., max_form_parts,
max_form_memory_size)`: run the assembler and return the `(name, value)`
items. -/
def parseStream (cfg : DecoderCfg) (maxParts : Nat) (maxMem : Option Nat)
    (chunks : List (List Nat)) :
    Except AsmErr (List (Option String × FormValue)) :=
  (parseStreamGo cfg maxParts maxMem initState initAsm chunks).map
    (fun a => a.items)

/-- Latin-1/ASCII bytes of a string, for concrete payloads. -/
def strBytes (s : String) : List Nat := s.data.map Char.toNat

/-- A concrete decoder configuration: boundary `b"b"`, an unknown charset
(so `safe_decode` always falls back to latin-1). -/
def cfgB : DecoderCfg := ⟨strBytes "b", fun _ => none⟩

/-- The states of the event-protocol automaton: before the `Preamble`,
expecting a part (or the `Epilogue`), inside a part's `Data` run, and
done. -/
inductive GState where
  | g0 : GState
  | gParts : GState
  | gData : GState
  | gDone : GState
  deriving DecidableEq, Repr

/-- One transition of the event-protocol automaton. -/
def gStep : GState → MEvent → Option GState
  | .g0, .preamble _ => some .gParts
  | .gParts, .field _ _ => some .gData
  | .gParts, .file _ _ _ => some .gData
  | .gParts, .epilogue _ => some .gDone
  | .gData, .data _ true => some .gData
  | .gData, .data _ false => some .gParts
  | _, _ => none

/-- Run the protocol automaton over an event list. -/
def gRun (g : GState) : List MEvent → Option GState
  | [] => some g
  | ev :: evs =>
    match gStep g ev with
    | some g' => gRun g' evs
    | none => none

/-- The protocol of claim C7 as stated: for each part one `Field` or `File`
then one or more `Data` with exactly the last having `more_data = false`,
repeated, terminated by exactly one `Epilogue` — with no initial `Preamble`
event. -/
def protoCheckClaim (evs : List MEvent) : Bool := gRun .gParts evs = some .gDone

/-- `Field` and `File` events: the start-of-part events of the claimed
protocol. -/
def isPartEv : MEvent → Bool
  | .field _ _ => true
  | .file _ _ _ => true
  | _ => false

/-- The protocol state a decoder state corresponds to. -/
def gOf : MStateTag → GState
  | .PREAMBLE => .g0
  | .PART => .gParts
  | .DATA => .gData
  | .EPILOGUE => .gParts
  | .COMPLETE => .gDone

/-- A canonical one-part body for boundary `b`, up to and including the
closing boundary. -/
def c1Head : List Nat :=
  strBytes "--b\r\nContent-Disposition: form-data; name=\"a\"\r\n\r\nx\r\n--b--"

/-- The line break that follows the closing boundary. -/
def crlfBytes : List Nat := strBytes "\r\n"

/-- A canonical well-formed one-part payload for boundary `b`: a text
field `a`, closed by `--b--` and a final CRLF. -/
def c1Payload : List Nat := c1Head ++ crlfBytes

/-- The chunked run raises the `AttributeError` of the `Headers`
construction in `_parse_headers`. -/
def crashesAttr (chunks : List (List Nat)) : Bool :=
  match decodeAll cfgB chunks with
  | .error (.dec .attributeError) => true
  | _ => false

/-- A three-part form body for boundary `b` (fields `a`, `bb`, `c` with
one-byte values). -/
def c5Body : List Nat :=
  strBytes ("--b\r\nContent-Disposition: form-data; name=\"a\"\r\n\r\n1\r\n" ++
    "--b\r\nContent-Disposition: form-data; name=\"bb\"\r\n\r\n2\r\n" ++
    "--b\r\nContent-Disposition: form-data; name=\"c\"\r\n\r\n3\r\n--b--\r\n")

/-- The invariant the assembler maintains: the item count equals the part
counter, the part counter respects `max_form_parts`, and the non-file byte
counter respects `max_form_memory_size` when set. -/
def asmInv (maxParts : Nat) (maxMem : Option Nat) (a : AsmState) : Prop :=
  a.items.length = a.formPartsCount ∧ a.formPartsCount ≤ maxParts ∧
    ∀ lim, maxMem = some lim → a.formMemorySize ≤ lim

/-- The compiled pattern of the route `"/about/{name}"`. -/
def aboutParts : List PPart := [.lit "/about/".data, .param "name" .str]

/-- The compiled pattern of the route `"/static/{filepath:any}"`. -/
def staticParts : List PPart := [.lit "/static/".data, .param "filepath" .anyConv]

/-- `x` lies in the half-open interval `p`. -/
def inIv (p : Int × Int) (x : Int) : Prop := p.1 ≤ x ∧ x < p.2

/-- `x` is covered by some interval of the list. -/
def covered (l : List (Int × Int)) (x : Int) : Prop := ∃ p ∈ l, inIv p x

/-- The consecutive intervals of the list are separated: each ends strictly
before the next starts (pairwise disjoint and non-touching, in ascending
order). -/
def pairwiseSeparated (l : List (Int × Int)) : Prop :=
  List.Chain' (fun a b => a.2 < b.1) l

instance : DecidablePred pairwiseSeparated := fun l =>
  inferInstanceAs (Decidable (List.Chain' _ l))

end Baize

namespace Baize

/-! ## Theorems about `parse_range` -/

/-- The head start of the merged list is bounded below by the minimum of the
inserted start and the old head start. -/
theorem insertMerge_head_ge (r : Int × Int) (l : List (Int × Int)) :
    ∀ q ∈ (insertMerge r l).head?,
      min r.1 (match l with | [] => r.1 | p :: _ => p.1) ≤ q.1 := by
  match l with
  | [] => intro q hq; simp [insertMerge] at hq; simp [hq]
  | p :: rest =>
    intro q hq
    rw [insertMerge] at hq
    by_cases h1 : r.1 > p.2
    · rw [if_pos h1] at hq
      simp at hq; subst hq; simp
    · rw [if_neg h1] at hq
      by_cases h2 : r.2 < p.1
      · rw [if_pos h2] at hq
        simp at hq; subst hq; simp
      · rw [if_neg h2] at hq
        simp at hq; subst hq; simp

theorem insertMerge_sorted (r : Int × Int) (hr : r.1 ≤ r.2) :
    ∀ res : List (Int × Int),
      List.Chain' (fun a b => a.1 < b.1) res →
      (∀ p ∈ res, p.1 ≤ p.2) →
      (List.Chain' (fun a b => a.1 < b.1) (insertMerge r res) ∧
        (∀ p ∈ insertMerge r res, p.1 ≤ p.2))
  | [], _, _ => by
    refine ⟨List.chain'_singleton r, ?_⟩; simp [insertMerge, hr]
  | p :: rest, hchain, hle => by
    have hp : p.1 ≤ p.2 := hle p (List.mem_cons_self ..)
    have hrest : ∀ q ∈ rest, q.1 ≤ q.2 := fun q hq => hle q (List.mem_cons_of_mem _ hq)
    obtain ⟨hhead, hchain2⟩ := List.chain'_cons'.mp hchain
    rw [insertMerge]
    by_cases h1 : r.1 > p.2
    · rw [if_pos h1]
      obtain ⟨ih1, ih2⟩ := insertMerge_sorted r hr rest hchain2 hrest
      refine ⟨List.chain'_cons'.mpr ⟨?_, ih1⟩, ?_⟩
      · intro q hq
        have hmin := insertMerge_head_ge r rest q hq
        rcases rest with _ | ⟨q0, rest'⟩
        · simp at hmin; omega
        · have hpq0 : p.1 < q0.1 := hhead q0 rfl
          simp at hmin; omega
      · intro q hq
        rcases List.mem_cons.mp hq with h | h
        · subst h; exact hp
        · exact ih2 q h
    · rw [if_neg h1]
      by_cases h2 : r.2 < p.1
      · rw [if_pos h2]
        refine ⟨List.chain'_cons'.mpr ⟨?_, hchain⟩, ?_⟩
        · intro q hq
          simp at hq; subst hq; omega
        · intro q hq
          rcases List.mem_cons.mp hq with h | h
          · subst h; exact hr
          · exact hle q h
      · rw [if_neg h2]
        refine ⟨List.chain'_cons'.mpr ⟨?_, hchain2⟩, ?_⟩
        · intro q hq
          have hpq : p.1 < q.1 := hhead q hq
          simp; omega
        · intro q hq
          rcases List.mem_cons.mp hq with h | h
          · subst h; simp; omega
          · exact hrest q h

theorem covered_cons (p : Int × Int) (l : List (Int × Int)) (x : Int) :
    covered (p :: l) x ↔ (inIv p x ∨ covered l x) := by
  constructor
  · rintro ⟨q, hq, hx⟩
    rcases List.mem_cons.mp hq with h | h
    · subst h; exact Or.inl hx
    · exact Or.inr ⟨q, h, hx⟩
  · rintro (h | ⟨q, hq, hx⟩)
    · exact ⟨p, List.mem_cons_self .., h⟩
    · exact ⟨q, List.mem_cons_of_mem _ hq, hx⟩

theorem insertMerge_covered (r : Int × Int)
    (res : List (Int × Int)) (hle : ∀ p ∈ res, p.1 ≤ p.2) (x : Int) :
    covered (insertMerge r res) x ↔ (inIv r x ∨ covered res x) := by
  induction res with
  | nil =>
    show covered [r] x ↔ _
    rw [covered_cons]
  | cons p rest ih =>
    have hp : p.1 ≤ p.2 := hle p (List.mem_cons_self ..)
    have hrest : ∀ q ∈ rest, q.1 ≤ q.2 := fun q hq => hle q (List.mem_cons_of_mem _ hq)
    have ih' := ih hrest
    rw [insertMerge]
    by_cases h1 : r.1 > p.2
    · rw [if_pos h1, covered_cons, covered_cons, ih']
      tauto
    · rw [if_neg h1]
      by_cases h2 : r.2 < p.1
      · rw [if_pos h2, covered_cons, covered_cons]
      · rw [if_neg h2, covered_cons, covered_cons]
        have hull : inIv (min r.1 p.1, max r.2 p.2) x ↔ (inIv r x ∨ inIv p x) := by
          unfold inIv
          simp only
          omega
        rw [hull]
        tauto

/-- Every interval produced by the merge fold has `start ≤ end`, the starts
are strictly ascending, and coverage is exactly that of the input ranges. -/
theorem mergeFold_spec (ranges : List (Int × Int))
    (h : ∀ r ∈ ranges, r.1 ≤ r.2) :
    List.Chain' (fun a b => a.1 < b.1)
        (ranges.foldl (fun res r => insertMerge r res) []) ∧
      (∀ p ∈ ranges.foldl (fun res r => insertMerge r res) [], p.1 ≤ p.2) ∧
      (∀ x, covered (ranges.foldl (fun res r => insertMerge r res) []) x ↔
        covered ranges x) := by
  suffices H : ∀ (init : List (Int × Int)),
      List.Chain' (fun a b => a.1 < b.1) init → (∀ p ∈ init, p.1 ≤ p.2) →
      List.Chain' (fun a b => a.1 < b.1)
          (ranges.foldl (fun res r => insertMerge r res) init) ∧
        (∀ p ∈ ranges.foldl (fun res r => insertMerge r res) init, p.1 ≤ p.2) ∧
        (∀ x, covered (ranges.foldl (fun res r => insertMerge r res) init) x ↔
          (covered ranges x ∨ covered init x)) by
    obtain ⟨h1, h2, h3⟩ := H [] List.chain'_nil (by simp)
    refine ⟨h1, h2, fun x => (h3 x).trans ?_⟩
    simp [covered]
  induction ranges with
  | nil =>
    intro init hchain hle
    refine ⟨hchain, hle, fun x => ?_⟩
    simp [covered]
  | cons r rest ih =>
    intro init hchain hle
    have hr : r.1 ≤ r.2 := h r (List.mem_cons_self ..)
    have hrest : ∀ q ∈ rest, q.1 ≤ q.2 := fun q hq => h q (List.mem_cons_of_mem _ hq)
    obtain ⟨s1, s2⟩ := insertMerge_sorted r hr init hchain hle
    obtain ⟨h1, h2, h3⟩ := ih hrest (insertMerge r init) s1 s2
    simp only [List.foldl_cons]
    refine ⟨h1, h2, fun x => (h3 x).trans ?_⟩
    rw [insertMerge_covered r init hle x]
    constructor
    · rintro (h | h | h)
      · left; obtain ⟨q, hq, hx⟩ := h; exact ⟨q, List.mem_cons_of_mem _ hq, hx⟩
      · left; exact ⟨r, List.mem_cons_self .., h⟩
      · right; exact h
    · rintro (⟨q, hq, hx⟩ | h)
      · rcases List.mem_cons.mp hq with hq' | hq'
        · subst hq'; right; left; exact hx
        · left; exact ⟨q, hq', hx⟩
      · right; right; exact h

theorem parseRange_ok_ranges (line : String) (maxSize : Int)
    (res : List (Int × Int)) (h : parseRange line maxSize = .ok res) :
    ∃ ranges, rawRanges line maxSize = some ranges ∧ ranges ≠ [] ∧
      (∀ r ∈ ranges, 0 ≤ r.1 ∧ r.1 < maxSize) ∧ (∀ r ∈ ranges, r.1 ≤ r.2) ∧
      ((ranges.length = 1 ∧ res = ranges) ∨
        (ranges.length ≠ 1 ∧
          res = ranges.foldl (fun acc r => insertMerge r acc) [])) := by
  unfold parseRange at h
  rcases hr : rawRanges line maxSize with _ | ranges <;> rw [hr] at h <;>
    simp only [] at h
  · exact absurd h (by simp)
  by_cases h0 : ranges = []
  · rw [if_pos h0] at h; exact absurd h (by simp)
  rw [if_neg h0] at h
  by_cases h1 : ranges.any (fun r => ¬(0 ≤ r.1 ∧ r.1 < maxSize)) = true
  · rw [if_pos h1] at h; exact absurd h (by simp)
  rw [if_neg h1] at h
  by_cases h2 : ranges.any (fun r => r.1 > r.2) = true
  · rw [if_pos h2] at h; exact absurd h (by simp)
  rw [if_neg h2] at h
  have hb : ∀ r ∈ ranges, 0 ≤ r.1 ∧ r.1 < maxSize := by
    intro r hrm
    by_contra hc
    exact h1 (List.any_eq_true.mpr ⟨r, hrm, by simp only [decide_eq_true_eq]; omega⟩)
  have hle : ∀ r ∈ ranges, r.1 ≤ r.2 := by
    intro r hrm
    by_contra hc
    exact h2 (List.any_eq_true.mpr ⟨r, hrm, by simp only [decide_eq_true_eq]; omega⟩)
  refine ⟨ranges, rfl, h0, hb, hle, ?_⟩
  by_cases hl : ranges.length = 1
  · rw [if_pos hl] at h
    left; exact ⟨hl, by injection h with h; exact h.symm⟩
  · rw [if_neg hl] at h
    right; exact ⟨hl, by injection h with h; exact h.symm⟩

/-- C2: the claim that the intervals returned by `parse_range` are always
pairwise disjoint and non-touching is false: on
`parse_range("bytes=0-10,20-30,5-25", 100)` the third requested range
bridges the two already-merged intervals, the merge loop only coalesces it
with the first one, and the result `[(0,26),(20,31)]` contains two
overlapping intervals. -/
theorem c2_counterexample :
    parseRange "bytes=0-10,20-30,5-25" 100 =
        .ok [((0 : Int), (26 : Int)), (20, 31)] ∧
      ¬pairwiseSeparated [((0 : Int), (26 : Int)), (20, 31)] := by
  refine ⟨rfl, fun hsep => ?_⟩
  have h := (List.chain'_cons.mp hsep).1
  norm_num at h

/-- C2 (amended): for every Range header and total size on which
`parse_range` returns a list, that list is sorted in strictly ascending
order of interval starts, every interval satisfies `start ≤ end`, and the
union of the returned intervals is exactly the union of the requested
intervals; consecutive intervals need not be disjoint (a later range that
bridges two previously merged intervals leaves an overlap). -/
theorem c2_parse_range_merge (line : String) (maxSize : Int)
    (res : List (Int × Int)) (h : parseRange line maxSize = .ok res) :
    List.Chain' (fun a b => a.1 < b.1) res ∧ (∀ p ∈ res, p.1 ≤ p.2) ∧
      ∃ ranges, rawRanges line maxSize = some ranges ∧
        ∀ x, covered res x ↔ covered ranges x := by
  obtain ⟨ranges, hraw, hne, hb, hle, hres⟩ :=
    parseRange_ok_ranges line maxSize res h
  rcases hres with ⟨hl, rfl⟩ | ⟨hl, rfl⟩
  · obtain ⟨a, rfl⟩ := List.length_eq_one.mp hl
    exact ⟨List.chain'_singleton a, hle, [a], hraw, fun x => Iff.rfl⟩
  · obtain ⟨h1, h2, h3⟩ := mergeFold_spec ranges hle
    exact ⟨h1, h2, ranges, hraw, h3⟩

/-- Instantiation of `c2_parse_range_merge` at a concrete header. -/
theorem c2_parse_range_merge_witness :
    List.Chain' (fun a b : Int × Int => a.1 < b.1)
        [((0 : Int), (26 : Int)), (20, 31)] ∧
      ∀ p ∈ [((0 : Int), (26 : Int)), (20, 31)], p.1 ≤ p.2 := by
  obtain ⟨h1, h2, _⟩ :=
    c2_parse_range_merge "bytes=0-10,20-30,5-25" 100 [(0, 26), (20, 31)] rfl
  exact ⟨h1, h2⟩

/-- C3: concrete evaluations of `parse_range`: a single range is returned as
a half-open interval, adjacent ranges merge, and overlapping, duplicate and
open-ended ranges merge, the open-ended range extending to the total
size. -/
theorem c3_parse_range_examples :
    parseRange "bytes=0-10" 4623 = .ok [((0 : Int), (11 : Int))] ∧
      parseRange "bytes=0-10,11-20" 4623 = .ok [((0 : Int), (21 : Int))] ∧
      parseRange "bytes=0-10,50-,20-29,40-50,20-29" 4623 =
        .ok [((0 : Int), (11 : Int)), (20, 30), (40, 4623)] :=
  ⟨rfl, rfl, rfl⟩

/-- C4: `parse_range` fails with `RangeNotSatisfiable` carrying the total
size whenever some requested range starts at or beyond the total size
(the bounds check precedes all later checks), and fails with
`MalformedRangeHeader` on a non-`bytes` unit and on a start>end pair; it
never returns normally in these cases. -/
theorem c4_parse_range_errors :
    (∀ (line : String) (maxSize : Int) (ranges : List (Int × Int)),
        rawRanges line maxSize = some ranges →
        (∃ r ∈ ranges, maxSize ≤ r.1) →
        parseRange line maxSize = .error (.rangeNotSatisfiable maxSize)) ∧
      parseRange "bytes=4625-4635" 4623 =
        .error (.rangeNotSatisfiable 4623) ∧
      parseRange "byte=0-10" 4623 = .error .malformedRangeHeader ∧
      parseRange "bytes=10-0" 4623 = .error .malformedRangeHeader := by
  refine ⟨?_, rfl, rfl, rfl⟩
  intro line maxSize ranges h hex
  obtain ⟨r, hrm, hge⟩ := hex
  unfold parseRange
  rw [h]
  simp only []
  rw [if_neg (by rintro rfl; simp at hrm)]
  rw [if_pos (List.any_eq_true.mpr
    ⟨r, hrm, by simp only [decide_eq_true_eq]; omega⟩)]

/-- Instantiation of the universal part of `c4_parse_range_errors` at a
concrete out-of-bounds header. -/
theorem c4_parse_range_errors_witness :
    rawRanges "bytes=5000-6000" 100 = some [((5000 : Int), (100 : Int))] ∧
      parseRange "bytes=5000-6000" 100 =
        .error (.rangeNotSatisfiable 100) :=
  ⟨rfl, c4_parse_range_errors.1 "bytes=5000-6000" 100 [(5000, 100)] rfl
    ⟨(5000, 100), List.mem_singleton.mpr rfl, by norm_num⟩⟩

/-! ## Theorems about `Headers` -/

/-- C9: evaluation of the source's `Headers` at the input of the repo's own
test `test_datastructures.py::test_headers`.  Iteration order, the
case-insensitive lookup and `getlist` behave as claimed, but
`Headers.__getitem__` returns only the first stored value, `"123"`, not the
`", "`-join `"123, 456"` the claim (and the repo's test) require. -/
theorem c9_headers_eval :
    HeadersM.getFirst ⟨[("a", "123"), ("a", "456"), ("b", "789")]⟩ "A" =
        some "123" ∧
      HeadersM.getlist ⟨[("a", "123"), ("a", "456"), ("b", "789")]⟩ "a" =
        ["123", "456"] ∧
      HeadersM.hasKey ⟨[("a", "123"), ("a", "456"), ("b", "789")]⟩ "B" = true ∧
      HeadersM.getFirst ⟨[("a", "123"), ("a", "456"), ("b", "789")]⟩ "a" ≠
        some "123, 456" := by
  refine ⟨by decide, by decide, by decide, by decide⟩

/-! ## Theorems about routing -/

theorem findSome?_isSome_iff {α β : Type} (f : α → Option β) (l : List α) :
    (l.findSome? f).isSome ↔ ∃ a ∈ l, (f a).isSome := by
  induction l with
  | nil => simp [List.findSome?]
  | cons a l ih =>
    rw [List.findSome?]
    cases hf : f a with
    | none => rw [ih]; simp [hf]
    | some b => simp [hf]

theorem mem_countdown {k n lo : Nat} : k ∈ countdown n lo ↔ lo ≤ k ∧ k ≤ n := by
  unfold countdown
  by_cases h : n < lo
  · simp [h]; omega
  · simp only [if_neg h, List.mem_map, List.mem_range]
    constructor
    · rintro ⟨i, hi, rfl⟩; omega
    · rintro ⟨h1, h2⟩; exact ⟨n - k, by omega, by omega⟩

theorem countdown_zero_eq (n : Nat) :
    countdown n 0 = n :: (List.range n).map (fun i => n - (i + 1)) := by
  unfold countdown
  rw [if_neg (by omega)]
  simp only [Nat.sub_zero, List.range_succ_eq_map, List.map_cons, Nat.sub_zero,
    List.map_map]
  rfl

theorem takeWhile_length_le {p : Char → Bool} (l : List Char) :
    (l.takeWhile p).length ≤ l.length :=
  (List.takeWhile_sublist _).length_le

theorem takeWhile_length_eq_iff {p : Char → Bool} (l : List Char) :
    (l.takeWhile p).length = l.length ↔ ∀ c ∈ l, p c := by
  induction l with
  | nil => simp
  | cons c l ih =>
    cases hp : p c with
    | true =>
      simp only [List.takeWhile_cons, hp, if_true, List.length_cons,
        List.mem_cons]
      constructor
      · intro h c' hc'
        rcases hc' with rfl | hc'
        · exact hp
        · exact (ih.mp (by omega)) c' hc'
      · intro h
        have := ih.mpr (fun c' hc' => h c' (Or.inr hc'))
        omega
    | false =>
      simp only [List.takeWhile_cons, hp, Bool.false_eq_true, if_false,
        List.length_nil, List.length_cons, List.mem_cons]
      constructor
      · intro h
        exact absurd h (by omega)
      · intro h
        have := h c (Or.inl rfl)
        rw [hp] at this
        exact absurd this (by simp)

theorem isSome_map {α β : Type} (f : α → β) (o : Option α) :
    (o.map f).isSome = o.isSome := by cases o <;> rfl

theorem matchParts_nil_isSome (cs : List Char) :
    (matchParts [] cs).isSome = true ↔ cs = [] := by
  cases cs <;> simp [matchParts]

/-- C8: the claim that `{name:any}` matches any text including slashes is
false: the `any` convertor regex `.*` is compiled without `re.DOTALL`, so it
matches no newline; the route `"/static/{filepath:any}"` fails to match the
path containing a line break. -/
theorem c8_counterexample :
    compilePath "/static/{filepath:any}" = .ok staticParts ∧
      routeMatches staticParts "/static/a\nb" = none :=
  ⟨rfl, rfl⟩

/-- C8 (amended): `search` scans the routes in declaration order and returns
the first full match with its typed parameters, `none` when no route
matches (a not-found signal, not an error); `{name}` matches exactly the
non-empty slash-free strings; `{name:any}` matches any newline-free text,
slashes included; and the claim's concrete table matches `/about/john` to
its second route and `/static/a/b/c` to its first. -/
theorem c8_router_search :
    (∀ (E : Type) (routes : List (List PPart × E)) (path : String)
        (r : List PPart × E) (ps : List (String × PyValue)),
        search routes path = some (r, ps) →
        ∃ pre post, routes = pre ++ r :: post ∧
          (∀ q ∈ pre, routeMatches q.1 path = none) ∧
          routeMatches r.1 path = some ps) ∧
      (∀ (E : Type) (routes : List (List PPart × E)) (path : String),
        search routes path = none ↔
          ∀ q ∈ routes, routeMatches q.1 path = none) ∧
      (∀ s : String,
        (routeMatches aboutParts ("/about/" ++ s)).isSome ↔
          (s ≠ "" ∧ '/' ∉ s.data)) ∧
      (∀ s : String, '\n' ∉ s.data →
        routeMatches staticParts ("/static/" ++ s) =
          some [("filepath", .pstr s)]) ∧
      compilePath "/static/{filepath:any}" = .ok staticParts ∧
      compilePath "/about/{name}" = .ok aboutParts ∧
      search [(staticParts, 0), (aboutParts, 1)] "/about/john" =
        some ((aboutParts, 1), [("name", .pstr "john")]) ∧
      search [(staticParts, 0), (aboutParts, 1)] "/static/a/b/c" =
        some ((staticParts, 0), [("filepath", .pstr "a/b/c")]) := by
  refine ⟨?_, ?_, ?_, ?_, rfl, rfl, rfl, rfl⟩
  · intro E routes path r ps h
    induction routes with
    | nil => exact absurd h (by simp [search])
    | cons r0 rest ih =>
      rw [search] at h
      cases hm : routeMatches r0.1 path with
      | some ps0 =>
        rw [hm] at h
        injection h with h
        injection h with h1 h2
        subst h1; subst h2
        exact ⟨[], rest, rfl, by simp, hm⟩
      | none =>
        rw [hm] at h
        obtain ⟨pre, post, hsplit, hpre, hr⟩ := ih h
        refine ⟨r0 :: pre, post, by rw [hsplit]; rfl, ?_, hr⟩
        intro q hq
        rcases List.mem_cons.mp hq with rfl | hq'
        · exact hm
        · exact hpre q hq'
  · intro E routes path
    induction routes with
    | nil => simp [search]
    | cons r0 rest ih =>
      rw [search]
      cases hm : routeMatches r0.1 path with
      | some ps0 =>
        simp only [List.mem_cons]
        constructor
        · intro h; exact absurd h (by simp)
        · intro h; exact absurd (h r0 (Or.inl rfl)) (by simp [hm])
      | none =>
        simp only [List.mem_cons]
        rw [ih]
        constructor
        · intro h q hq
          rcases hq with rfl | hq'
          · exact hm
          · exact h q hq'
        · intro h q hq
          exact h q (Or.inr hq)
  · intro s
    unfold routeMatches aboutParts
    rw [String.data_append]
    simp only [matchParts]
    rw [if_pos (List.isPrefixOf_iff_prefix.mpr (List.prefix_append _ _))]
    rw [List.drop_left]
    rw [isSome_map, findSome?_isSome_iff]
    simp only [isSome_map, matchParts_nil_isSome, convCandidates]
    have hrun : nonSlashRun s.data ≤ s.data.length := takeWhile_length_le s.data
    constructor
    · rintro ⟨k, hk, hdk⟩
      obtain ⟨hk1, hk2⟩ := mem_countdown.mp hk
      have hlen : s.data.length ≤ k := by
        have hl := congrArg List.length hdk
        rw [List.length_drop] at hl
        simp only [List.length_nil] at hl
        omega
      have heq : nonSlashRun s.data = s.data.length := by omega
      have hall := (takeWhile_length_eq_iff s.data).mp heq
      refine ⟨?_, ?_⟩
      · rintro rfl
        have h0 : nonSlashRun ("" : String).data = 0 := rfl
        omega
      · intro hmem
        have := hall '/' hmem
        simp at this
    · rintro ⟨hne, hmem⟩
      have hall : ∀ c ∈ s.data, (fun c => decide (c ≠ '/')) c = true := by
        intro c hc
        simp only [decide_eq_true_eq, ne_eq]
        rintro rfl
        exact hmem hc
      have heq : nonSlashRun s.data = s.data.length :=
        (takeWhile_length_eq_iff s.data).mpr hall
      have hlen : 1 ≤ s.data.length := by
        rcases hd : s.data with _ | ⟨c, cs⟩
        · refine absurd ?_ hne
          cases s with
          | mk d => simp at hd; rw [hd]
        · simp
      exact ⟨s.data.length, mem_countdown.mpr (by omega), List.drop_length _⟩
  · intro s hs
    unfold routeMatches staticParts
    rw [String.data_append]
    simp only [matchParts]
    rw [if_pos (List.isPrefixOf_iff_prefix.mpr (List.prefix_append _ _))]
    rw [List.drop_left]
    have hall : ∀ c ∈ s.data, (fun c => decide (c ≠ '\n')) c = true := by
      intro c hc
      simp only [decide_eq_true_eq, ne_eq]
      rintro rfl
      exact hs hc
    have heq : dotRun s.data = s.data.length :=
      (takeWhile_length_eq_iff s.data).mpr hall
    simp only [convCandidates]
    rw [heq, countdown_zero_eq, List.findSome?_cons]
    rw [List.drop_length, List.take_length]
    have hmk : (⟨s.data⟩ : String) = s := by
      cases s with
      | mk d => rfl
    simp [matchParts, hmk, toPython]

/-- Instantiation of `c8_router_search` at a concrete slash-containing
path. -/
theorem c8_router_search_witness :
    routeMatches staticParts "/static/a/b/c" =
      some [("filepath", PyValue.pstr "a/b/c")] :=
  c8_router_search.2.2.2.1 "a/b/c" (by decide)

/-! ## Theorems about the multipart decoder -/

theorem parseHeaderLines_no_malformed (cfg : DecoderCfg)
    (lines : List (List Nat)) :
    parseHeaderLines cfg lines ≠ .error .malformedMultipart := by
  induction lines with
  | nil => simp [parseHeaderLines]
  | cons line rest ih =>
    rw [parseHeaderLines]
    by_cases h : stripB line = []
    · rw [if_pos h]; exact ih
    · rw [if_neg h]
      cases hs : splitFirstChar ':' (safeDecode cfg (stripB line)).data with
      | none => simp
      | some p =>
        cases hr : parseHeaderLines cfg rest with
        | error e =>
          intro hc
          simp only [Except.map] at hc
          injection hc with hc
          rw [hc] at hr
          exact ih hr
        | ok l => simp [Except.map]

theorem parseHeadersB_no_malformed (cfg : DecoderCfg) (data : List Nat) :
    parseHeadersB cfg data ≠ .error .malformedMultipart := by
  unfold parseHeadersB
  split
  · rename_i e he
    intro hc
    injection hc with hc
    rw [hc] at he
    exact parseHeaderLines_no_malformed cfg _ he
  · intro hc
    injection hc with hc
    exact MErr.noConfusion hc

/-- `_parse_headers` never returns a `Headers` value: when every line
parses, the final `Headers(headers)` construction raises. -/
theorem parseHeadersB_no_ok (cfg : DecoderCfg) (data : List Nat)
    (hs : HeadersM) : parseHeadersB cfg data ≠ .ok hs := by
  unfold parseHeadersB
  split <;> (intro hc; exact Except.noConfusion hc)

theorem dataPartial_ok (st : DState) (ev : MEvent) (st' : DState)
    (h : dataPartial st = .ok (ev, st')) :
    st'.complete = st.complete ∧ st'.state = st.state := by
  unfold dataPartial at h
  split at h <;>
    · simp only [Except.ok.injEq, Prod.mk.injEq] at h
      obtain ⟨h1, h2⟩ := h
      subst h2
      exact ⟨rfl, rfl⟩

theorem dataPartial_needData (st : DState) (st' : DState)
    (h : dataPartial st = .ok (.needData, st')) : st' = st := by
  unfold dataPartial at h
  split at h
  · exact absurd h (by simp)
  · rename_i hne
    simp only [ne_eq, not_not] at hne
    simp only [Except.ok.injEq, Prod.mk.injEq, true_and] at h
    have hb : st.buffer.drop (lastNewline st.buffer) = st.buffer := by
      rcases List.take_eq_nil_iff.mp hne with h0 | h0
      · rw [h0, List.drop_zero]
      · rw [h0]; rfl
    rw [← h, hb]

theorem dataPartial_not_epilogue (st : DState) (d : List Nat) (st' : DState) :
    dataPartial st ≠ .ok (.epilogue d, st') := by
  unfold dataPartial
  split <;> simp

theorem dataPartial_data_nonempty (st : DState) (d : List Nat) (m : Bool)
    (st' : DState) (h : dataPartial st = .ok (.data d m, st')) :
    d ≠ [] ∧ m = true := by
  unfold dataPartial at h
  split at h
  · rename_i hne
    simp only [Except.ok.injEq, Prod.mk.injEq] at h
    obtain ⟨h1, h2⟩ := h
    injection h1 with h1 h1'
    subst h1 h1'
    exact ⟨by simpa using hne, rfl⟩
  · exact absurd h (by simp)

/-- The core never changes the `complete` flag. -/
theorem core_complete_eq (cfg : DecoderCfg) (st : DState) (ev : MEvent)
    (st' : DState) (h : nextEventCore cfg st = .ok (ev, st')) :
    st'.complete = st.complete := by
  unfold nextEventCore at h
  split at h <;>
    (try split at h) <;>
    (try split at h) <;>
    (try split at h) <;>
    (try split at h) <;>
    first
    | exact (dataPartial_ok _ _ _ h).1
    | exact Except.noConfusion h
    | (injection h with h
       injection h with h1 h2
       subst h2
       rfl)

/-- A `NeedData` outcome of the core leaves the state unchanged. -/
theorem core_needData_state (cfg : DecoderCfg) (st : DState) (st' : DState)
    (h : nextEventCore cfg st = .ok (.needData, st')) : st' = st := by
  unfold nextEventCore at h
  split at h <;>
    (try split at h) <;>
    (try split at h) <;>
    (try split at h) <;>
    (try split at h) <;>
    first
    | exact dataPartial_needData _ _ h
    | exact Except.noConfusion h
    | (injection h with h
       injection h with h1 h2
       first
       | exact MEvent.noConfusion h1
       | exact h2.symm)

/-- An `Epilogue` event moves the decoder to `COMPLETE`. -/
theorem core_epilogue_state (cfg : DecoderCfg) (st : DState) (d : List Nat)
    (st' : DState) (h : nextEventCore cfg st = .ok (.epilogue d, st')) :
    st'.state = .COMPLETE := by
  unfold nextEventCore at h
  split at h <;>
    (try split at h) <;>
    (try split at h) <;>
    (try split at h) <;>
    (try split at h) <;>
    first
    | exact absurd h (dataPartial_not_epilogue _ _ _)
    | exact Except.noConfusion h
    | (injection h with h
       injection h with h1 h2
       first
       | exact MEvent.noConfusion h1
       | (subst h2; rfl))

theorem dataPartial_ne_error (st : DState) (e : MErr) :
    dataPartial st ≠ .error e := by
  unfold dataPartial
  split <;> simp

theorem core_data_true (cfg : DecoderCfg) (st : DState) (d : List Nat)
    (st1 : DState) (hc : nextEventCore cfg st = .ok (.data d true, st1)) :
    d ≠ [] := by
  unfold nextEventCore at hc
  split at hc <;>
    (try split at hc) <;>
    (try split at hc) <;>
    (try split at hc) <;>
    (try split at hc) <;>
    first
    | exact (dataPartial_data_nonempty _ _ _ _ hc).1
    | exact Except.noConfusion hc
    | (injection hc with hc
       injection hc with h1 h2
       first
       | exact MEvent.noConfusion h1
       | (injection h1 with hd hm
          exact Bool.noConfusion hm))

/-- The core never raises `MalformedMultipart` itself: once a header block
is complete, `_parse_headers` always fails first, so the
missing-`Content-Disposition` branch is unreachable. -/
theorem core_no_malformed (cfg : DecoderCfg) (st : DState) :
    nextEventCore cfg st ≠ .error .malformedMultipart := by
  unfold nextEventCore
  split
  · -- PREAMBLE
    split <;> (intro hc; exact Except.noConfusion hc)
  · -- PART
    split
    · split
      · rename_i err hparse
        intro hc
        injection hc with hc
        rw [hc] at hparse
        exact parseHeadersB_no_malformed cfg _ hparse
      · rename_i headers hparse
        exact absurd hparse (parseHeadersB_no_ok cfg _ _)
    · intro hc
      exact Except.noConfusion hc
  · -- DATA
    split
    · exact dataPartial_ne_error _ _
    · split
      · intro hc
        exact Except.noConfusion hc
      · exact dataPartial_ne_error _ _
  · -- EPILOGUE
    split <;> (intro hc; exact Except.noConfusion hc)
  · intro hc
    exact Except.noConfusion hc

/-- C10: every `Data` event `next_event` emits with `more_data = true`
carries non-empty data: when only an undecidable prefix of a part body is
buffered, an empty slice yields `NeedData` rather than an empty partial
`Data` event (`if data or not more_data`); an empty payload can occur only
on a part's final `Data` event. -/
theorem c10_data_more_nonempty (cfg : DecoderCfg) (st : DState)
    (d : List Nat) (st' : DState)
    (h : nextEvent cfg st = .ok (.data d true, st')) : d ≠ [] := by
  unfold nextEvent at h
  split at h
  · exact Except.noConfusion h
  · rename_i ev st1 heq
    split at h
    · exact Except.noConfusion h
    · injection h with h
      injection h with h1 h2
      subst h1
      exact core_data_true cfg st d st1 heq

/-- Instantiation of `c10_data_more_nonempty`: in the `DATA` state with
buffer `"hello\r\nx"` and no boundary in sight, the decoder emits the
bytes before the line break as a partial `Data` event. -/
theorem c10_data_more_nonempty_witness : strBytes "hello" ≠ [] :=
  c10_data_more_nonempty cfgB ⟨.DATA, strBytes "hello\r\nx", false⟩
    (strBytes "hello") ⟨.DATA, strBytes "\r\nx", false⟩ (by rfl)

/-- C6, counterexample: a stream whose part has a completed header block
without `Content-Disposition` — the claim's first situation — makes the
decoder raise the `Headers`-construction `AttributeError`, a different
exception from the claimed malformed-input error, which never fires
there. -/
theorem c6_counterexample :
    decodeAll cfgB [strBytes "--b\r\nX-Other: 1\r\n\r\n"] =
        .error (.dec .attributeError) ∧
      MErr.attributeError ≠ MErr.malformedMultipart :=
  ⟨by rfl, by decide⟩

/-- C6 (amended): `next_event` raises `MalformedMultipart` exactly when
end-of-stream has been signalled while the decoder would otherwise return
`NeedData`.  A part's completed header block never yields
`MalformedMultipart`: `_parse_headers` raises `ValueError` for a header
line without a colon and otherwise `AttributeError` at its final
`Headers(headers)` call, so the `Content-Disposition` check is
unreachable. -/
theorem c6_malformed_iff (cfg : DecoderCfg) (st : DState) :
    nextEvent cfg st = .error .malformedMultipart ↔
      (st.complete = true ∧ nextEventCore cfg st = .ok (.needData, st)) := by
  constructor
  · intro h
    unfold nextEvent at h
    split at h
    · rename_i e heq
      injection h with h
      subst h
      exact absurd heq (core_no_malformed cfg st)
    · rename_i ev st1 heq
      split at h
      · rename_i hcn
        obtain ⟨hcomp, hev⟩ := hcn
        subst hev
        have hst1 := core_needData_state cfg st st1 heq
        subst hst1
        exact ⟨hcomp, heq⟩
      · exact Except.noConfusion h
  · intro h
    obtain ⟨hcomp, hcore⟩ := h
    unfold nextEvent
    simp [hcore, hcomp]

theorem asmStep_inv (cfg : DecoderCfg) (maxParts : Nat)
    (maxMem : Option Nat) (a : AsmState) (ev : MEvent) (a' : AsmState)
    (hinv : asmInv maxParts maxMem a)
    (h : asmStep cfg maxParts maxMem a ev = .ok a') :
    asmInv maxParts maxMem a' := by
  obtain ⟨hlen, hcnt, hmem⟩ := hinv
  cases ev with
  | field n hs =>
    simp only [asmStep] at h
    injection h with h
    subst h
    exact ⟨hlen, hcnt, hmem⟩
  | file n fn hs =>
    simp only [asmStep] at h
    injection h with h
    subst h
    exact ⟨hlen, hcnt, hmem⟩
  | preamble d =>
    simp only [asmStep] at h
    injection h with h
    subst h
    exact ⟨hlen, hcnt, hmem⟩
  | epilogue d =>
    simp only [asmStep] at h
    injection h with h
    subst h
    exact ⟨hlen, hcnt, hmem⟩
  | needData =>
    simp only [asmStep] at h
    injection h with h
    subst h
    exact ⟨hlen, hcnt, hmem⟩
  | data d more =>
    simp only [asmStep] at h
    split at h
    · -- no current file
      split at h
      · exact Except.noConfusion h
      · rename_i hmex
        split at h
        · injection h with h
          subst h
          refine ⟨?_, ?_, ?_⟩ <;> dsimp only
          · exact hlen
          · exact hcnt
          · intro lim hl
            subst hl
            simp only [memExceeded, decide_eq_true_eq] at hmex
            omega
        · split at h
          · exact Except.noConfusion h
          · rename_i hover
            injection h with h
            subst h
            refine ⟨?_, ?_, ?_⟩ <;> dsimp only
            · simp [hlen]
            · omega
            · intro lim hl
              subst hl
              simp only [memExceeded, decide_eq_true_eq] at hmex
              omega
    · -- writing to a file
      split at h
      · injection h with h
        subst h
        exact ⟨hlen, hcnt, hmem⟩
      · split at h
        · exact Except.noConfusion h
        · rename_i hover
          injection h with h
          subst h
          refine ⟨?_, ?_, ?_⟩ <;> dsimp only
          · simp [hlen]
          · omega
          · exact hmem

theorem asmFold_inv (cfg : DecoderCfg) (maxParts : Nat)
    (maxMem : Option Nat) :
    ∀ (evs : List MEvent) (a a' : AsmState), asmInv maxParts maxMem a →
      asmFold cfg maxParts maxMem a evs = .ok a' →
      asmInv maxParts maxMem a'
  | [], a, a', hinv, h => by
    simp only [asmFold] at h
    injection h with h
    subst h
    exact hinv
  | ev :: evs, a, a', hinv, h => by
    simp only [asmFold] at h
    split at h
    · exact Except.noConfusion h
    · rename_i a1 hstep
      exact asmFold_inv cfg maxParts maxMem evs a1 a'
        (asmStep_inv cfg maxParts maxMem a ev a1 hinv hstep) h

theorem parseStreamGo_inv (cfg : DecoderCfg) (maxParts : Nat)
    (maxMem : Option Nat) :
    ∀ (chunks : List (List Nat)) (dst : DState) (a a' : AsmState),
      asmInv maxParts maxMem a →
      parseStreamGo cfg maxParts maxMem dst a chunks = .ok a' →
      asmInv maxParts maxMem a'
  | [], dst, a, a', hinv, h => by
    simp only [parseStreamGo] at h
    injection h with h
    subst h
    exact hinv
  | c :: cs, dst, a, a', hinv, h => by
    simp only [parseStreamGo] at h
    split at h
    · exact Except.noConfusion h
    · exact Except.noConfusion h
    · rename_i evs dst' hfeed
      split at h
      · exact Except.noConfusion h
      · rename_i a1 hfold
        exact parseStreamGo_inv cfg maxParts maxMem cs dst' a1 a'
          (asmFold_inv cfg maxParts maxMem evs a a1 hinv hfold) h

theorem initAsm_inv (maxParts : Nat) (maxMem : Option Nat) :
    asmInv maxParts maxMem initAsm :=
  ⟨rfl, Nat.zero_le _, fun _ _ => Nat.zero_le _⟩

/-- C5 (code bug): the request-too-large error of `parse_stream` is
unreachable — whatever the two limits, decoding the three-part body raises
the `AttributeError` of the `Headers` construction at the first part's
header block, before any part is completed or any non-file data is
accumulated, so neither `max_form_parts` nor `max_form_memory_size` is
ever enforced and no result is returned. -/
theorem c5_limits_unreachable (maxParts : Nat) (maxMem : Option Nat) :
    parseStream cfgB maxParts maxMem [c5Body] =
      .error (.dec .attributeError) := by
  rfl

/-! ### Fuel sufficiency of the drain loop -/

/-- `findSome?` success yields a member on which the function succeeds. -/
theorem findSome?_eq_some_ex {α β : Type} (f : α → Option β) (l : List α)
    (b : β) (h : l.findSome? f = some b) : ∃ a ∈ l, f a = some b := by
  induction l with
  | nil => exact absurd h (by simp)
  | cons x xs ih =>
    rw [List.findSome?] at h
    cases hf : f x with
    | some y =>
      rw [hf] at h
      injection h with h
      exact ⟨x, by simp, by rw [hf, h]⟩
    | none =>
      rw [hf] at h
      obtain ⟨a, ha, hfa⟩ := ih h
      exact ⟨a, by simp [ha], hfa⟩

/-- A mandatory line break always consumes at least one byte. -/
theorem lbMand_pos (l : List Nat) (p : Nat) (hp : p ∈ lbMandCandidates l) :
    1 ≤ p := by
  unfold lbMandCandidates at hp
  split at hp
  · simp only [List.mem_cons, List.not_mem_nil, or_false] at hp
    rcases hp with rfl | rfl <;> decide
  · simp only [List.mem_cons, List.not_mem_nil, or_false] at hp
    subst hp; decide
  · simp only [List.mem_cons, List.not_mem_nil, or_false] at hp
    subst hp; decide
  · exact absurd hp (by simp)

/-- A `boundary_re` match (mandatory leading line break) has positive
length. -/
theorem coreAt_false_pos (boundary : List Nat) (l : List Nat) (len : Nat)
    (dd : Bool) (h : coreAt boundary false l = some (len, dd)) : 1 ≤ len := by
  unfold coreAt at h
  rw [if_neg (by decide : ¬((false : Bool) = true))] at h
  obtain ⟨p, hp, hf⟩ := findSome?_eq_some_ex _ _ _ h
  have hf' : (if (45 :: 45 :: boundary).isPrefixOf (l.drop p) then
      (groupMatch ((l.drop p).drop (2 + boundary.length))).map
        (fun g => (p + 2 + boundary.length + g.1, g.2))
      else none) = some (len, dd) := hf
  split at hf'
  · cases hg : groupMatch ((l.drop p).drop (2 + boundary.length)) with
    | none => rw [hg] at hf'; exact Option.noConfusion hf'
    | some g =>
      rw [hg] at hf'
      injection hf' with hf'
      injection hf' with h1 h2
      have := lbMand_pos l p hp
      omega
  · exact Option.noConfusion hf'

/-- `boundary_re.search` returns an end index strictly beyond the start. -/
theorem reSearchGo_false_pos (boundary : List Nat) (i : Nat) (l : List Nat)
    (s e : Nat) (dd : Bool)
    (h : reSearchGo boundary false i l = some (s, e, dd)) : s + 1 ≤ e := by
  induction l generalizing i with
  | nil => exact Option.noConfusion h
  | cons b rest ih =>
    rw [reSearchGo] at h
    split at h
    · rename_i len dd' hcore
      injection h with h1
      injection h1 with h1 h2
      injection h2 with h2 h3
      have := coreAt_false_pos boundary (b :: rest) len dd' hcore
      omega
    · exact ih (i + 1) h

/-- A partial `Data` event strictly decreases the drain measure. -/
theorem dataPartial_progress (st : DState) (ev : MEvent) (st' : DState)
    (h : dataPartial st = .ok (ev, st')) (hne : ev ≠ .needData) :
    dMeasure st' < dMeasure st := by
  unfold dataPartial at h
  split at h
  · rename_i hnz
    injection h with h
    injection h with h1 h2
    subst h2
    rw [ne_eq, List.take_eq_nil_iff] at hnz
    push_neg at hnz
    have hlp : 0 < st.buffer.length := List.length_pos.mpr hnz.2
    have hn0 := hnz.1
    dsimp only [dMeasure]
    rw [List.length_drop]
    omega
  · injection h with h
    injection h with h1 h2
    exact absurd h1.symm hne

/-- Every event other than `NeedData` strictly decreases the drain
measure `2 * buffer.length + stateRank`. -/
theorem core_progress (cfg : DecoderCfg) (st : DState) (ev : MEvent)
    (st' : DState) (h : nextEventCore cfg st = .ok (ev, st'))
    (hne : ev ≠ .needData) : dMeasure st' < dMeasure st := by
  unfold nextEventCore at h
  split at h
  · -- PREAMBLE
    rename_i hstate
    split at h
    · rename_i s e dd hsearch
      injection h with h
      injection h with h1 h2
      subst h2
      cases dd <;> simp [dMeasure, hstate, stateRank] <;> omega
    · injection h with h
      injection h with h1 h2
      exact absurd h1.symm hne
  · -- PART
    rename_i hstate
    split at h
    · rename_i s e hsearch
      split at h
      · exact Except.noConfusion h
      · rename_i headers hparse
        split at h
        · split at h
          · rename_i fn hfn
            injection h with h
            injection h with h1 h2
            subst h2
            simp [dMeasure, hstate, stateRank]
            omega
          · injection h with h
            injection h with h1 h2
            subst h2
            simp [dMeasure, hstate, stateRank]
            omega
        · exact Except.noConfusion h
    · injection h with h
      injection h with h1 h2
      exact absurd h1.symm hne
  · -- DATA
    rename_i hstate
    split at h
    · exact dataPartial_progress st ev st' h hne
    · split at h
      · rename_i s e dd hsearch
        injection h with h
        injection h with h1 h2
        subst h2
        have hbne : st.buffer ≠ [] := by
          intro hb
          rw [hb] at hsearch
          exact Option.noConfusion hsearch
        have hlp : 0 < st.buffer.length := List.length_pos.mpr hbne
        have hep : s + 1 ≤ e := by
          unfold reSearch at hsearch
          exact reSearchGo_false_pos cfg.boundary 0 st.buffer s e dd hsearch
        cases dd <;> simp [dMeasure, hstate, stateRank] <;> omega
      · exact dataPartial_progress st ev st' h hne
  · -- EPILOGUE
    rename_i hstate
    split at h
    · injection h with h
      injection h with h1 h2
      subst h2
      simp [dMeasure, hstate, stateRank]
    · injection h with h
      injection h with h1 h2
      exact absurd h1.symm hne
  · -- COMPLETE
    injection h with h
    injection h with h1 h2
    exact absurd h1.symm hne

/-- `next_event` success comes from the core with the same outcome. -/
theorem nextEvent_core_ok (cfg : DecoderCfg) (st : DState) (ev : MEvent)
    (st' : DState) (h : nextEvent cfg st = .ok (ev, st')) :
    nextEventCore cfg st = .ok (ev, st') := by
  unfold nextEvent at h
  split at h
  · exact Except.noConfusion h
  · rename_i ev1 st1 heq
    split at h
    · exact Except.noConfusion h
    · injection h with h
      injection h with h1 h2
      subst h1
      subst h2
      exact heq

/-- Progress lifted to `next_event`. -/
theorem nextEvent_progress (cfg : DecoderCfg) (st : DState) (ev : MEvent)
    (st' : DState) (h : nextEvent cfg st = .ok (ev, st'))
    (hne : ev ≠ .needData) : dMeasure st' < dMeasure st :=
  core_progress cfg st ev st' (nextEvent_core_ok cfg st ev st' h) hne

/-- With fuel exceeding the measure, the drain loop never runs out: the
fuel the drivers pass (`dMeasure st + 1`) is always sufficient. -/
theorem drain_no_fuel (cfg : DecoderCfg) (fuel : Nat) (st : DState)
    (hf : dMeasure st < fuel) : drain cfg fuel st ≠ .error .fuel := by
  induction fuel generalizing st with
  | zero => omega
  | succ fuel ih =>
    rw [drain]
    split
    · simp
    · rename_i ev st1 heq
      split
      · simp
      · rename_i hev
        split
        · simp
        · split
          · rename_i e hdrain
            intro hc
            injection hc with hc
            subst hc
            have hprog := nextEvent_progress cfg st ev st1 heq hev
            exact absurd hdrain (ih st1 (by omega))
          · simp

/-! ### The event-protocol automaton simulates the decoder -/

/-- A partial-data outcome respects the protocol automaton. -/
theorem dataPartial_gStep (st : DState) (ev : MEvent) (st' : DState)
    (h : dataPartial st = .ok (ev, st')) (hne : ev ≠ .needData)
    (hstate : st.state = .DATA) :
    gStep (gOf st.state) ev = some (gOf st'.state) := by
  unfold dataPartial at h
  split at h
  · injection h with h
    injection h with h1 h2
    subst h1
    subst h2
    rw [hstate]
    rfl
  · injection h with h
    injection h with h1 h2
    exact absurd h1.symm hne

/-- Each event the core emits is a transition of the protocol automaton
between the images of the decoder states. -/
theorem core_gStep (cfg : DecoderCfg) (st : DState) (ev : MEvent)
    (st' : DState) (h : nextEventCore cfg st = .ok (ev, st'))
    (hne : ev ≠ .needData) :
    gStep (gOf st.state) ev = some (gOf st'.state) := by
  unfold nextEventCore at h
  split at h
  · -- PREAMBLE
    rename_i hstate
    split at h
    · rename_i s e dd hsearch
      injection h with h
      injection h with h1 h2
      subst h1
      subst h2
      rw [hstate]
      cases dd <;> rfl
    · injection h with h
      injection h with h1 h2
      exact absurd h1.symm hne
  · -- PART
    rename_i hstate
    split at h
    · rename_i s e hsearch
      split at h
      · exact Except.noConfusion h
      · rename_i headers hparse
        split at h
        · split at h
          · rename_i fn hfn
            injection h with h
            injection h with h1 h2
            subst h1
            subst h2
            rw [hstate]
            rfl
          · injection h with h
            injection h with h1 h2
            subst h1
            subst h2
            rw [hstate]
            rfl
        · exact Except.noConfusion h
    · injection h with h
      injection h with h1 h2
      exact absurd h1.symm hne
  · -- DATA
    rename_i hstate
    split at h
    · exact dataPartial_gStep st ev st' h hne hstate
    · split at h
      · rename_i s e dd hsearch
        injection h with h
        injection h with h1 h2
        subst h1
        subst h2
        rw [hstate]
        cases dd <;> rfl
      · exact dataPartial_gStep st ev st' h hne hstate
  · -- EPILOGUE
    rename_i hstate
    split at h
    · injection h with h
      injection h with h1 h2
      subst h1
      subst h2
      rw [hstate]
      rfl
    · injection h with h
      injection h with h1 h2
      exact absurd h1.symm hne
  · -- COMPLETE
    injection h with h
    injection h with h1 h2
    exact absurd h1.symm hne

/-- `core_gStep` lifted to `next_event`. -/
theorem nextEvent_gStep (cfg : DecoderCfg) (st : DState) (ev : MEvent)
    (st' : DState) (h : nextEvent cfg st = .ok (ev, st'))
    (hne : ev ≠ .needData) :
    gStep (gOf st.state) ev = some (gOf st'.state) :=
  core_gStep cfg st ev st' (nextEvent_core_ok cfg st ev st' h) hne

/-- A `NeedData` outcome of `next_event` leaves the state unchanged. -/
theorem nextEvent_needData_state (cfg : DecoderCfg) (st : DState)
    (st' : DState) (h : nextEvent cfg st = .ok (.needData, st')) : st' = st :=
  core_needData_state cfg st st' (nextEvent_core_ok cfg st .needData st' h)

/-- `next_event` never changes the `complete` flag. -/
theorem nextEvent_complete_eq (cfg : DecoderCfg) (st : DState) (ev : MEvent)
    (st' : DState) (h : nextEvent cfg st = .ok (ev, st')) :
    st'.complete = st.complete :=
  core_complete_eq cfg st ev st' (nextEvent_core_ok cfg st ev st' h)

/-- An `Epilogue` event of `next_event` moves the decoder to `COMPLETE`. -/
theorem nextEvent_epilogue_state (cfg : DecoderCfg) (st : DState)
    (d : List Nat) (st' : DState)
    (h : nextEvent cfg st = .ok (.epilogue d, st')) : st'.state = .COMPLETE :=
  core_epilogue_state cfg st d st' (nextEvent_core_ok cfg st (.epilogue d) st' h)

/-- The automaton run distributes over appended event lists. -/
theorem gRun_append (g : GState) (evs1 evs2 : List MEvent) :
    gRun g (evs1 ++ evs2) =
      match gRun g evs1 with
      | some g' => gRun g' evs2
      | none => none := by
  induction evs1 generalizing g with
  | nil => rfl
  | cons ev evs ih =>
    simp only [List.cons_append, gRun]
    cases gStep g ev with
    | none => rfl
    | some g' => exact ih g'

/-- The events of one drain run the automaton from the image of the
initial decoder state to the image of the final one. -/
theorem drain_gRun (cfg : DecoderCfg) (fuel : Nat) (st : DState)
    (evs : List MEvent) (st' : DState)
    (h : drain cfg fuel st = .ok (evs, st')) :
    gRun (gOf st.state) evs = some (gOf st'.state) := by
  induction fuel generalizing st evs st' with
  | zero => exact Except.noConfusion h
  | succ fuel ih =>
    rw [drain] at h
    split at h
    · exact Except.noConfusion h
    · rename_i ev st1 heq
      split at h
      · rename_i hev
        subst hev
        injection h with h
        injection h with h1 h2
        subst h1
        subst h2
        have hst := nextEvent_needData_state cfg st st1 heq
        subst hst
        rfl
      · rename_i hev
        split at h
        · rename_i d
          injection h with h
          injection h with h1 h2
          subst h1
          subst h2
          have hstep := nextEvent_gStep cfg st (.epilogue d) st1 heq
            (by intro hc; exact MEvent.noConfusion hc)
          simp [gRun, hstep]
        · split at h
          · exact Except.noConfusion h
          · rename_i evs2 st2 hdrain
            injection h with h
            injection h with h1 h2
            subst h1
            subst h2
            have hstep := nextEvent_gStep cfg st ev st1 heq hev
            have hrec := ih st1 evs2 st2 hdrain
            simp [gRun, hstep, hrec]

/-- A drain on a decoder that has seen end-of-stream can only succeed by
reaching the `COMPLETE` state (via an `Epilogue` event). -/
theorem drain_complete_state (cfg : DecoderCfg) (fuel : Nat) (st : DState)
    (evs : List MEvent) (st' : DState) (hcomp : st.complete = true)
    (h : drain cfg fuel st = .ok (evs, st')) : st'.state = .COMPLETE := by
  induction fuel generalizing st evs st' with
  | zero => exact Except.noConfusion h
  | succ fuel ih =>
    rw [drain] at h
    split at h
    · exact Except.noConfusion h
    · rename_i ev st1 heq
      split at h
      · rename_i hev
        subst hev
        exfalso
        unfold nextEvent at heq
        split at heq
        · exact Except.noConfusion heq
        · rename_i ev1 st2 hcore
          split at heq
          · exact Except.noConfusion heq
          · rename_i hcn
            injection heq with heq
            injection heq with h1 h2
            exact hcn ⟨hcomp, h1⟩
      · rename_i hev
        split at h
        · rename_i d
          injection h with h
          injection h with h1 h2
          subst h2
          exact nextEvent_epilogue_state cfg st d st1 heq
        · split at h
          · exact Except.noConfusion h
          · rename_i evs2 st2 hdrain
            injection h with h
            injection h with h1 h2
            subst h2
            have hcomp1 : st1.complete = true := by
              rw [nextEvent_complete_eq cfg st ev st1 heq]
              exact hcomp
            exact ih st1 evs2 st2 hcomp1 hdrain

/-- `receive_data` does not change the state tag. -/
theorem receiveData_state (st : DState) (o : Option (List Nat)) :
    (receiveData st o).state = st.state := by
  cases o <;> rfl

/-- The full chunked driver runs the automaton from the image of the start
state to `gDone`: the final drain happens after end-of-stream and so ends in
`COMPLETE`. -/
theorem decodeAllGo_gRun (cfg : DecoderCfg) (st : DState)
    (chunks : List (List Nat)) (evs : List MEvent) (st' : DState)
    (h : decodeAllGo cfg st chunks = .ok (evs, st')) :
    gRun (gOf st.state) evs = some (gOf st'.state) ∧ st'.state = .COMPLETE := by
  induction chunks generalizing st evs st' with
  | nil =>
    rw [decodeAllGo] at h
    have h' : drain cfg (dMeasure (receiveData st none) + 1)
        (receiveData st none) = .ok (evs, st') := h
    constructor
    · have hg := drain_gRun cfg _ _ evs st' h'
      rwa [receiveData_state] at hg
    · exact drain_complete_state cfg _ _ evs st' rfl h'
  | cons c cs ih =>
    rw [decodeAllGo] at h
    split at h
    · exact Except.noConfusion h
    · rename_i evs1 st1 hfeed
      split at h
      · exact Except.noConfusion h
      · rename_i evs2 st2 hrec
        injection h with h
        injection h with h1 h2
        subst h1
        subst h2
        obtain ⟨hrun2, hcompl⟩ := ih st1 evs2 st2 hrec
        have h' : drain cfg (dMeasure (receiveData st (some c)) + 1)
            (receiveData st (some c)) = .ok (evs1, st1) := hfeed
        have hrun1 : gRun (gOf st.state) evs1 = some (gOf st1.state) := by
          have hg := drain_gRun cfg _ _ evs1 st1 h'
          rwa [receiveData_state] at hg
        refine ⟨?_, hcompl⟩
        rw [gRun_append, hrun1]
        exact hrun2

/-! ### Accepted streams contain no part events -/

/-- A partial-data outcome is a `Data` or `NeedData` event, never a
`Field` or `File`. -/
theorem dataPartial_partEv (st : DState) (ev : MEvent) (st' : DState)
    (h : dataPartial st = .ok (ev, st')) : isPartEv ev = false := by
  unfold dataPartial at h
  split at h <;>
    · injection h with h
      injection h with h1 h2
      subst h1
      rfl

/-- The core, faithfully, never emits a `Field` or `File` event: the
`PART` branch always raises once a header block is complete. -/
theorem core_no_partEv (cfg : DecoderCfg) (st : DState) (ev : MEvent)
    (st' : DState) (h : nextEventCore cfg st = .ok (ev, st')) :
    isPartEv ev = false := by
  unfold nextEventCore at h
  split at h
  · -- PREAMBLE
    split at h <;>
      · injection h with h
        injection h with h1 h2
        subst h1
        rfl
  · -- PART
    split at h
    · split at h
      · exact Except.noConfusion h
      · rename_i headers hparse
        exact absurd hparse (parseHeadersB_no_ok cfg _ _)
    · injection h with h
      injection h with h1 h2
      subst h1
      rfl
  · -- DATA
    split at h
    · exact dataPartial_partEv st ev st' h
    · split at h
      · injection h with h
        injection h with h1 h2
        subst h1
        rfl
      · exact dataPartial_partEv st ev st' h
  · -- EPILOGUE
    split at h <;>
      · injection h with h
        injection h with h1 h2
        subst h1
        rfl
  · injection h with h
    injection h with h1 h2
    subst h1
    rfl

/-- `core_no_partEv` lifted to `next_event`. -/
theorem nextEvent_no_partEv (cfg : DecoderCfg) (st : DState) (ev : MEvent)
    (st' : DState) (h : nextEvent cfg st = .ok (ev, st')) :
    isPartEv ev = false :=
  core_no_partEv cfg st ev st' (nextEvent_core_ok cfg st ev st' h)

/-- No drained event is a `Field` or `File`. -/
theorem drain_no_partEv (cfg : DecoderCfg) (fuel : Nat) (st : DState)
    (evs : List MEvent) (st' : DState)
    (h : drain cfg fuel st = .ok (evs, st')) :
    ∀ ev ∈ evs, isPartEv ev = false := by
  induction fuel generalizing st evs st' with
  | zero => exact Except.noConfusion h
  | succ fuel ih =>
    rw [drain] at h
    split at h
    · exact Except.noConfusion h
    · rename_i ev st1 heq
      split at h
      · injection h with h
        injection h with h1 h2
        subst h1
        intro e he
        exact absurd he (by simp)
      · split at h
        · rename_i d
          injection h with h
          injection h with h1 h2
          subst h1
          intro e he
          rw [List.mem_singleton] at he
          subst he
          rfl
        · split at h
          · exact Except.noConfusion h
          · rename_i evs2 st2 hdrain
            injection h with h
            injection h with h1 h2
            subst h1
            intro e he
            rw [List.mem_cons] at he
            rcases he with rfl | he
            · exact nextEvent_no_partEv cfg st e st1 heq
            · exact ih st1 evs2 st2 hdrain e he

/-- No event of a full chunked run is a `Field` or `File`. -/
theorem decodeAllGo_no_partEv (cfg : DecoderCfg) (st : DState)
    (chunks : List (List Nat)) (evs : List MEvent) (st' : DState)
    (h : decodeAllGo cfg st chunks = .ok (evs, st')) :
    ∀ ev ∈ evs, isPartEv ev = false := by
  induction chunks generalizing st evs st' with
  | nil =>
    rw [decodeAllGo] at h
    have h' : drain cfg (dMeasure (receiveData st none) + 1)
        (receiveData st none) = .ok (evs, st') := h
    exact drain_no_partEv cfg _ _ evs st' h'
  | cons c cs ih =>
    rw [decodeAllGo] at h
    split at h
    · exact Except.noConfusion h
    · rename_i evs1 st1 hfeed
      split at h
      · exact Except.noConfusion h
      · rename_i evs2 st2 hrec
        injection h with h
        injection h with h1 h2
        subst h1
        have h' : drain cfg (dMeasure (receiveData st (some c)) + 1)
            (receiveData st (some c)) = .ok (evs1, st1) := hfeed
        intro e he
        rw [List.mem_append] at he
        rcases he with he | he
        · exact drain_no_partEv cfg _ _ evs1 st1 h' e he
        · exact ih st1 evs2 st2 hrec e he

/-- A run of the automaton from start to done that contains no `Field` or
`File` event is exactly one `Preamble` followed by one `Epilogue`. -/
theorem gRun_shape (evs : List MEvent)
    (hnf : ∀ ev ∈ evs, isPartEv ev = false)
    (h : gRun .g0 evs = some .gDone) :
    ∃ d e, evs = [.preamble d, .epilogue e] := by
  cases evs with
  | nil => simp [gRun] at h
  | cons ev1 rest =>
    cases ev1 with
    | preamble d =>
      simp only [gRun, gStep] at h
      cases rest with
      | nil => simp [gRun] at h
      | cons ev2 rest2 =>
        cases ev2 with
        | epilogue e =>
          simp only [gRun, gStep] at h
          cases rest2 with
          | nil => exact ⟨d, e, rfl⟩
          | cons ev3 rest3 =>
            cases ev3 <;> simp [gRun, gStep] at h
        | field n hs =>
          have hf := hnf (.field n hs) (by simp)
          simp [isPartEv] at hf
        | file n fn hs =>
          have hf := hnf (.file n fn hs) (by simp)
          simp [isPartEv] at hf
        | preamble d2 => simp [gRun, gStep] at h
        | data d2 m => cases m <;> simp [gRun, gStep] at h
        | needData => simp [gRun, gStep] at h
    | field n hs => simp [gRun, gStep] at h
    | file n fn hs => simp [gRun, gStep] at h
    | data d m => cases m <;> simp [gRun, gStep] at h
    | epilogue e => simp [gRun, gStep] at h
    | needData => simp [gRun, gStep] at h

/-- C7, counterexample to the claim as stated: an accepted stream (the
empty multipart, whose closing boundary opens the payload) yields a
`Preamble` event before the `Epilogue`; the claimed protocol — per-part
patterns terminated by exactly one `Epilogue`, with no preamble — rejects
that first event.  (Streams containing parts are never accepted at all:
their header blocks raise inside `_parse_headers`.) -/
theorem c7_counterexample :
    decodeAll cfgB [strBytes "--b--\r\n"] =
        .ok [.preamble [], .epilogue []] ∧
      protoCheckClaim [.preamble [], .epilogue []] = false :=
  ⟨by rfl, by rfl⟩

/-- C7 (amended): the non-`NeedData` events of every accepted input stream
are exactly one `Preamble` followed by one `Epilogue`.  The claimed
per-part pattern never occurs: a part's completed header block always
raises inside `_parse_headers` (`ValueError` for a colon-less line, the
`Headers`-construction `AttributeError` otherwise), so an accepted stream
never contains a `Field`, `File` or `Data` event. -/
theorem c7_event_protocol (cfg : DecoderCfg) (chunks : List (List Nat))
    (evs : List MEvent) (h : decodeAll cfg chunks = .ok evs) :
    ∃ d e, evs = [.preamble d, .epilogue e] := by
  unfold decodeAll at h
  cases hgo : decodeAllGo cfg initState chunks with
  | error e =>
    rw [hgo] at h
    exact Except.noConfusion h
  | ok p =>
    rw [hgo] at h
    obtain ⟨evs1, stf⟩ := p
    simp only [Except.map] at h
    injection h with h
    subst h
    obtain ⟨hrun, hcompl⟩ := decodeAllGo_gRun cfg initState chunks evs1 stf hgo
    rw [hcompl] at hrun
    exact gRun_shape evs1
      (decodeAllGo_no_partEv cfg initState chunks evs1 stf hgo) hrun

/-- Instantiation of `c7_event_protocol` on a concrete accepted stream:
the empty multipart. -/
theorem c7_event_protocol_witness :
    ∃ d e, ([MEvent.preamble [], MEvent.epilogue []] : List MEvent) =
      [.preamble d, .epilogue e] :=
  c7_event_protocol cfgB [strBytes "--b--\r\n"] _ (by rfl)

/-- C1 (code bug): the decoder cannot decode any payload containing a
part, under any chunking: the first completed header block raises the
`AttributeError` of `Headers(headers)` in `_parse_headers`, so the claimed
equal event sequences are never produced.  Verified on a canonical
well-formed one-part payload for the batch run, for every split into two
non-empty chunks and for the one-byte-per-chunk split.  Where the decoder
does accept (a part-free payload), chunk-size independence fails anyway:
splitting between the closing boundary and its line break leaves the line
break in the `Epilogue` event's data. -/
theorem c1_headers_crash :
    crashesAttr [c1Payload] = true ∧
      ((List.range (c1Payload.length - 1)).all (fun k =>
        crashesAttr [c1Payload.take (k + 1), c1Payload.drop (k + 1)])) =
        true ∧
      crashesAttr (c1Payload.map (fun b => [b])) = true ∧
      decodeAll cfgB [strBytes "--b--" ++ strBytes "\r\n"] =
        .ok [.preamble [], .epilogue []] ∧
      decodeAll cfgB [strBytes "--b--", strBytes "\r\n"] =
        .ok [.preamble [], .epilogue (strBytes "\r\n")] :=
  ⟨by rfl, by rfl, by rfl, by rfl, by rfl⟩

end Baize
